import Mathlib

set_option maxHeartbeats 1600000

/-!
Shallow embedding of the reference-resolution & deduplication engine of the
wol-sieve repository, together with proofs of the specification claims.

The embedding follows the TypeScript source:
* `kernel` operation results (`wrapAsyncOp`, `opErrored`);
* the publication classifier (`detectReferenceDataType`) including a model of
  the JavaScript word-boundary case-insensitive regular-expression test;
* anchor target derivation (`buildAnchorRefExtractionData`);
* payload validation (`isJsonContentAcceptableForReferenceExtraction`,
  `parseAnchorRefDataOrThrow`);
* the BibleStudyEdition text-extraction strategy over a DOM value model;
* the document-scoped deduplicator and aggregator of
  `scrappers/pub-nwtsty/pub-nwtsty.ts` (`_extractBibleReferences`).

JavaScript machine behaviour is modelled explicitly: values that may be
`undefined` become `Option`, code that can throw returns `Except JsError`,
and the single-flight promises of the deduplicator are modelled by an explicit
fetch list plus a completion phase that may be applied in any order.
-/

namespace WolSieve

/-- A JavaScript runtime error: either an engine `TypeError` (e.g. reading a
property of `undefined`) or a thrown `new Error(msg)`. -/
inductive JsError where
  | typeError (msg : String)
  | errorObj (msg : String)
  deriving DecidableEq, Repr

/-! ## kernel: operation results (`wrapAsyncOp`, `opErrored`) -/

/-- Outcome of awaiting one inner async function call, as seen by
`wrapAsyncOp`'s `try` block: the promise fulfilled with a non-`Error` value,
fulfilled with an `Error` value (carrying its message), or threw/rejected. -/
inductive JsOutcome (T : Type) where
  | value (t : T)
  | errValue (msg : String)
  | thrown (msg : String)
  deriving DecidableEq, Repr

/-- The `{ err, res }` object returned by a `wrapAsyncOp`-wrapped operation.
`none` models JavaScript `null`. -/
structure OpResult (T : Type) where
  err : Option String
  res : Option T
  deriving DecidableEq, Repr

/-- `wrapAsyncOp` from the kernel: awaits the inner function; an `Error`
return value or a throw becomes `{ err, res: null }`, any other value becomes
`{ err: null, res }`. The surrounding `try`/`catch` means the wrapper itself
always returns (never rejects), which is why its result type is a plain
`OpResult` and not `Except`. -/
def wrapAsyncOp {A T : Type} (asyncFunc : A → JsOutcome T) : A → OpResult T :=
  fun args =>
    match asyncFunc args with
    | .value t => { err := none, res := some t }
    | .errValue e => { err := some e, res := none }
    | .thrown e => { err := some e, res := none }

/-- `opErrored` from the kernel: `result.err !== null`. -/
def opErrored {T : Type} (result : OpResult T) : Bool :=
  result.err.isSome

/-! ## kernel constants used by the reference pipeline -/

/-- `CONSTANTS.WOL_URL` from the kernel constants. -/
def WOL_URL : String := "https://wol.jw.org"

/-- `CONSTANTS.PUB_CODE_WATCHTOWER`. -/
def PUB_CODE_WATCHTOWER : String := "pub-w"

/-- `CONSTANTS.PUB_CODE_BIBLE`. -/
def PUB_CODE_BIBLE : String := "pub-nwtsty"

/-- Modelled from the spec: `CONSTANTS.UNABLE_TO_EXTRACT_REFERENCE`, which
`pub-nwtsty.ts` and `pub-w.ts` read off the kernel constants exported by
`kernel/index.js`; the kernel index module and the constants snapshot defining
this property are not among the provided kernel sources (both provided
constant snapshots predate it), so its value is taken from the spec's wording:
the fixed sentinel string substituted for a failed reference. -/
def UNABLE_TO_EXTRACT_REFERENCE : String := "unable to extract reference"

/-! ## Publication classifier (`detectReferenceDataType`)

The source tests `new RegExp('\x5cb' + code + '\x5cb', 'i')` against
`articleClasses`. We model the JavaScript regular-expression semantics of a
literal token between two word-boundary assertions, case-insensitively:
`\w` is `[A-Za-z0-9_]`, and a word boundary holds at a position where exactly
one of the two surrounding characters (missing characters count as non-word)
is a word character. -/

/-- JavaScript regex word character (`\w`): ASCII letters, digits, `_`. -/
def isWordChar (c : Char) : Bool := c.isAlphanum || c == '_'

/-- Word-character test extended to a possibly missing character: out of the
string counts as non-word. -/
def isWordOpt : Option Char → Bool
  | none => false
  | some c => isWordChar c

/-- Case-insensitive character comparison (regex `i` flag). -/
def charEqCI (a b : Char) : Bool := a.toLower == b.toLower

/-- Matches the token literally (case-insensitively) at the head of `rest`,
then requires a word boundary after the last matched character (`last` is the
most recently consumed character). -/
def matchTokenCI : List Char → List Char → Option Char → Bool
  | [], rest, last => isWordOpt last != isWordOpt rest.head?
  | _ :: _, [], _ => false
  | t :: ts, c :: cs, _ => charEqCI t c && matchTokenCI ts cs (some c)

/-- Scans the string for a position with a word boundary before it where the
token matches followed by a word boundary; `prev` is the character before the
current position. -/
def searchWordCI (tok : List Char) : List Char → Option Char → Bool
  | [], _ => false
  | c :: cs, prev =>
      ((isWordOpt prev != isWordChar c) && matchTokenCI tok (c :: cs) prev)
        || searchWordCI tok cs (some c)

/-- `new RegExp('\x5cb' + tok + '\x5cb', 'i').test s`. -/
def testWholeWordCI (tok s : String) : Bool :=
  searchWordCI tok.toList s.toList none

/-- The fields of `BasePublicationItem` consulted by the embedded operations
(classification reads `articleClasses`, extraction reads `content`); the
remaining fields of the TypeScript interface are never read on these paths. -/
structure BasePublicationItem where
  content : String
  articleClasses : String
  deriving DecidableEq, Repr

/-- `PublicationRefDetectionData` from `reference-json-commons`. -/
structure PublicationRefDetectionData where
  isPubW : Bool
  isPubNwtsty : Bool
  deriving DecidableEq, Repr

/-- `detectReferenceDataType`: tests the two fixed publication codes as
case-insensitive whole words against `articleClasses`. -/
def detectReferenceDataType (itemData : BasePublicationItem) : PublicationRefDetectionData :=
  { isPubW := testWholeWordCI PUB_CODE_WATCHTOWER itemData.articleClasses,
    isPubNwtsty := testWholeWordCI PUB_CODE_BIBLE itemData.articleClasses }

/-- The closed set of publication kinds; names which extraction strategy
`pickAndApplyTextExtractor` selects. -/
inductive PublicationKind where
  | Watchtower
  | BibleStudyEdition
  | Default
  deriving DecidableEq, Repr

/-- The strategy-selection order of `pickAndApplyTextExtractor`: `isPubW`
first, then `isPubNwtsty`, otherwise the default strategy. -/
def pickStrategyKind (d : PublicationRefDetectionData) : PublicationKind :=
  if d.isPubW then .Watchtower
  else if d.isPubNwtsty then .BibleStudyEdition
  else .Default

/-! ## Anchor target derivation (`buildAnchorRefExtractionData`) -/

/-- `AnchorRefExtractionData` from `reference-json-commons`. -/
structure AnchorRefExtractionData where
  sourceHref : String
  fetchUrl : String
  deriving DecidableEq, Repr

/-- `buildAnchorRefExtractionData`: `$el.attr('href') || ''` (a missing
attribute yields `undefined`, defaulted to the empty string), then
`CONSTANTS.WOL_URL + sourceHref.slice(3)`. `slice(3)` of a string shorter
than 3 is the empty string, as is `String.drop`. -/
def buildAnchorRefExtractionData (hrefAttr : Option String) : AnchorRefExtractionData :=
  let sourceHref := hrefAttr.getD ""
  { sourceHref := sourceHref, fetchUrl := WOL_URL ++ sourceHref.drop 3 }

/-! ## Payload validation (`isJsonContentAcceptableForReferenceExtraction`) -/

/-- The raw JSON `items` entries as accessed by the validator: each field is
`some` string exactly when the JSON property is present and a string. -/
structure RawPublicationItem where
  content : Option String
  articleClasses : Option String
  deriving DecidableEq, Repr

/-- The raw JSON payload as accessed by the validator: `items` is `some` list
exactly when the JSON property is present and an array. -/
structure RawPublicationPayload where
  items : Option (List RawPublicationItem)
  deriving DecidableEq, Repr

/-- A field check of the validator: `typeof v === 'string'` and truthy (the
empty string is falsy). -/
def nonEmptyStringField : Option String → Bool
  | some s => !(s == "")
  | none => false

/-- `isJsonContentAcceptableForReferenceExtraction`, step for step:
the first `if` records invalidity when `items` is not an array of length at
least 1; then `const [itemData] = json.items` throws a `TypeError` when
`items` is not iterable, and the following `typeof itemData.content` property
access throws a `TypeError` when `items` is an empty array (`itemData` is
`undefined`); otherwise the two field checks are recorded and the accumulated
flag is returned. -/
def isJsonContentAcceptableForReferenceExtraction
    (json : RawPublicationPayload) : Except JsError Bool :=
  let isValid₀ : Bool :=
    match json.items with
    | some items => !(Nat.blt items.length 1)
    | none => false
  match json.items with
  | none => .error (.typeError "json.items is not iterable")
  | some [] => .error (.typeError "cannot read properties of undefined (reading content)")
  | some (itemData :: _) =>
      let isValid₁ := isValid₀ && nonEmptyStringField itemData.content
      let isValid₂ := isValid₁ && nonEmptyStringField itemData.articleClasses
      .ok isValid₂

/-- `PublicationRefData` from `reference-json.ts`. -/
structure PublicationRefData where
  isPubW : Bool
  isPubNwtsty : Bool
  parsedContent : String
  deriving DecidableEq, Repr

/-- Conversion of a validated raw item to the typed item: after validation
both fields are present strings, so the defaults are never used. -/
def toBasePublicationItem (i : RawPublicationItem) : BasePublicationItem :=
  { content := i.content.getD "", articleClasses := i.articleClasses.getD "" }

/-- `buildPublicationRefData`, parameterised by `extract`, which stands for
`pickAndApplyTextExtractor` (the strategy set parses raw HTML strings with
cheerio; the strategies themselves are modelled separately on DOM values). -/
def buildPublicationRefData (extract : PublicationRefDetectionData → String → String)
    (rawReferenceData : BasePublicationItem) : PublicationRefData :=
  let contentDetectionData := detectReferenceDataType rawReferenceData
  { isPubW := contentDetectionData.isPubW,
    isPubNwtsty := contentDetectionData.isPubNwtsty,
    parsedContent := extract contentDetectionData rawReferenceData.content }

/-- `parseAnchorRefDataOrThrow`: validates, throws the malformed-payload
`Error` when the validator reports invalid, otherwise destructures the first
item and builds the reference data. The fall-through branch mirrors
JavaScript semantics of destructuring an empty array and then reading a
property of `undefined` (it is unreachable because a `true` validation
implies a first item exists). -/
def parseAnchorRefDataOrThrow (extract : PublicationRefDetectionData → String → String)
    (fetchedReferenceJson : RawPublicationPayload) : Except JsError PublicationRefData := do
  let acceptable ← isJsonContentAcceptableForReferenceExtraction fetchedReferenceJson
  if !acceptable then
    .error (.errorObj "JSON content for reference doesn't match the expected format.")
  else
    match fetchedReferenceJson.items with
    | some (itemData :: _) => .ok (buildPublicationRefData extract (toBasePublicationItem itemData))
    | _ => .error (.typeError "cannot read properties of undefined (reading articleClasses)")

/-! ## Generic text cleanup (`generic.ts`)

`cleanText` trims and then replaces every occurrence of the two-character
sequence `U+00C2 U+00A0` (the source literal's bytes) with a plain space;
the final step of the BibleStudyEdition strategy collapses a whitespace
character adjacent to a newline into a bare newline. -/

/-- JavaScript whitespace (`\s`, and the set trimmed by `trim()`): the common
members consulted here. -/
def jsWhitespaceChar (c : Char) : Bool :=
  c == ' ' || c == '\t' || c == '\n' || c == '\r' || c == '\x0b' || c == '\x0c' ||
  c == ' ' || c == ' ' || c == ' ' || c == '﻿'

/-- JavaScript `trim()` on the character list. -/
def jsTrim (l : List Char) : List Char :=
  ((l.dropWhile jsWhitespaceChar).reverse.dropWhile jsWhitespaceChar).reverse

/-- `replaceAll('Â ', ' ')`: left-to-right, non-overlapping. -/
def replaceMojibakeNbsp : List Char → List Char
  | [] => []
  | [a] => [a]
  | a :: b :: rest =>
      if a == 'Â' && b == ' ' then ' ' :: replaceMojibakeNbsp rest
      else a :: replaceMojibakeNbsp (b :: rest)

/-- `cleanText` from `generic.ts` (its non-string guard is carried by the
`String` type here). -/
def cleanText (txt : String) : String :=
  String.mk (replaceMojibakeNbsp (jsTrim txt.toList))

/-- `.replace(/(\s\n|\n\s)/g, '\n')`: a global scan replacing each
whitespace-newline or newline-whitespace pair by a bare newline; the scan
resumes after each replacement. -/
def collapseWhitespaceNewline : List Char → List Char
  | [] => []
  | [a] => [a]
  | a :: b :: rest =>
      if (jsWhitespaceChar a && b == '\n') || (a == '\n' && jsWhitespaceChar b)
      then '\n' :: collapseWhitespaceNewline rest
      else a :: collapseWhitespaceNewline (b :: rest)

/-! ## DOM value model and the BibleStudyEdition strategy
(`extractPubNwtstyReferenceAsText`) -/

/-- A parsed DOM node: an element with tag name, class list and children, or
a text node. -/
inductive DomNode where
  | elem (tag : String) (classes : List String) (children : List DomNode)
  | txt (s : String)

mutual

/-- `$.text()` of one node: concatenation of the text nodes below it. -/
def nodeText : DomNode → String
  | .txt s => s
  | .elem _ _ children => nodesText children

/-- `$.text()` of a node list. -/
def nodesText : List DomNode → String
  | [] => ""
  | n :: ns => nodeText n ++ nodesText ns

end

/-- The selector `a.fn, a.b`: an anchor element carrying class `fn` or `b`.
A `span` with class `b` does not match (the tag must be `a`). -/
def isRemovableAnchorNode : DomNode → Bool
  | .elem tag classes _ => tag == "a" && (classes.contains "fn" || classes.contains "b")
  | .txt _ => false

mutual

/-- `$('a.fn, a.b').remove()` below one kept node. -/
def removeAnchorNode : DomNode → DomNode
  | .txt s => .txt s
  | .elem tag classes children => .elem tag classes (removeAnchorNodes children)

/-- `$('a.fn, a.b').remove()` on a node list: matching subtrees are dropped
entirely, other nodes are kept with the removal applied below them. -/
def removeAnchorNodes : List DomNode → List DomNode
  | [] => []
  | n :: ns =>
      if isRemovableAnchorNode n then removeAnchorNodes ns
      else removeAnchorNode n :: removeAnchorNodes ns

end

mutual

/-- For every element matching `.sl, .sz`, `$(el).append('<span> </span>')`:
a space-only span becomes the element's last child. -/
def appendSpaceNode : DomNode → DomNode
  | .txt s => .txt s
  | .elem tag classes children =>
      let children' := appendSpaceNodes children
      if classes.contains "sl" || classes.contains "sz" then
        .elem tag classes (children' ++ [DomNode.elem "span" [] [DomNode.txt " "]])
      else .elem tag classes children'

/-- The `.sl, .sz` appending applied to a node list. -/
def appendSpaceNodes : List DomNode → List DomNode
  | [] => []
  | n :: ns => appendSpaceNode n :: appendSpaceNodes ns

end

mutual

/-- The `context.text()` contribution of one original node of the content and
of the elements below it, after the mutations. `context = $('*')` is a
pre-order snapshot of every element of the loaded document, so each element
contributes the text of its own (current) subtree, followed by its
descendants' contributions; text nodes are not elements and contribute
nothing of their own. A removed (`a.fn, a.b`) element is detached but still
sits in the snapshot: its root is kept (it matches no context `find`, so it
receives no self-append) while the removal and the appends still apply below
it; a kept element's current subtree is the removal followed by the appends
applied at it. -/
def selectionTextNode : DomNode → String
  | .txt _ => ""
  | .elem tag classes children =>
      (if isRemovableAnchorNode (.elem tag classes children) then
        nodeText (DomNode.elem tag classes (appendSpaceNodes (removeAnchorNodes children)))
      else
        nodeText (appendSpaceNode (removeAnchorNode (.elem tag classes children))))
        ++ selectionTextNodes children

/-- The selection-text contributions of a node list, in document order. -/
def selectionTextNodes : List DomNode → String
  | [] => ""
  | n :: ns => selectionTextNode n ++ selectionTextNodes ns

end

/-- The string entry of the live dual-entry `extractPubNwtstyReferenceAsText`
on the parsed content fragment (one without `html`/`head`/`body` of its own,
as the payload fragments are): `cheerio.load` wraps the content as
`html[head[], body[content]]` and `context = $('*')` snapshots every element
in pre-order — `html`, `head`, `body`, then the content's elements. After
`context.find('a.fn, a.b').remove()` and the space appends on `.sl, .sz`,
`context.text()` concatenates each selected element's subtree text: the
mutated content once for `html`, nothing for the empty `head`, the mutated
content again for `body`, and then every content element's own subtree — so
nested text is duplicated. The result is cleaned and the
whitespace-adjacent-to-newline collapse applied. -/
def extractPubNwtstyReferenceAsText (content : List DomNode) : String :=
  String.mk (collapseWhitespaceNewline
    (cleanText (nodesText (appendSpaceNodes (removeAnchorNodes content))
      ++ "" ++ nodesText (appendSpaceNodes (removeAnchorNodes content))
      ++ selectionTextNodes content)).toList)

/-! ## The document-scoped deduplicator (`_extractBibleReferences`)

`sectionDataMapper` runs synchronously and sequentially over
`dataInSectionsToProcess.map(...)`, sharing the one `mnemonicExtractionTracking`
map, so the bookkeeping walk is over the concatenation of the sections' anchor
lists. Each first sighting of a mnemonic starts one fetch and stores its
promise; the promise's continuation later writes `trackingObj.refContents`.
The promises are modelled by the explicit fetch list produced by the walk,
and their settlement by a completion phase that may be applied in any order. -/

/-- An insertion-ordered string-keyed map (JavaScript `Map` / object). -/
abbrev StrMap (α : Type) := List (String × α)

/-- `Map.prototype.get` / property read. -/
def mapGet {α : Type} : StrMap α → String → Option α
  | [], _ => none
  | p :: rest, k => if p.1 = k then some p.2 else mapGet rest k

/-- `Map.prototype.set` / property write: updates an existing key in place,
otherwise appends (insertion order). -/
def mapSet {α : Type} : StrMap α → String → α → StrMap α
  | [], k, v => [(k, v)]
  | p :: rest, k, v => if p.1 = k then (k, v) :: rest else p :: mapSet rest k v

/-- The keys of a map, in order. -/
abbrev mapKeys {α : Type} (m : StrMap α) : List String := m.map Prod.fst

/-- `AnchorDataForProcess`: the mnemonic (the anchor's text) and the data the
resolver reads off the `$anchor` handle, namely its `href` attribute
(`none` when the attribute is absent). -/
structure AnchorDataForProcess where
  mnemonic : String
  href : Option String
  deriving DecidableEq, Repr

/-- `SectionDataForProcess` from `pub-nwtsty.ts`. -/
structure SectionDataForProcess where
  sectionKey : String
  sectionTitle : String
  referenceDataInAnchors : List AnchorDataForProcess
  deriving DecidableEq, Repr

/-- `MnemonicExtractionTrackingData`. The `operationPromise` field is
modelled by the walk's fetch list together with the completion phase, and
`relatedDataTracking` is written but never read by the aggregation, so
neither is carried as data. -/
structure MnemonicExtractionTrackingData where
  mnemonic : String
  refContents : String
  seenCounter : Nat
  deriving DecidableEq, Repr

/-- The `mnemonicExtractionTracking` map. -/
abbrev TrackingMap := StrMap MnemonicExtractionTrackingData

/-- The fresh tracking object created on a mnemonic's first sighting. -/
def defaultTrackingData (mnemonic : String) : MnemonicExtractionTrackingData :=
  { mnemonic := mnemonic, refContents := "", seenCounter := 0 }

/-- One iteration of the anchor loop in `sectionDataMapper`: `getTrackingObj`
looks up or creates the entry and stores it back; a fetch is started exactly
when `seenCounter === 0`; then `seenCounter += 1` (the stored object is the
mutated one). -/
def processAnchor (st : TrackingMap × List AnchorDataForProcess)
    (anchor : AnchorDataForProcess) : TrackingMap × List AnchorDataForProcess :=
  let trackingObj := (mapGet st.1 anchor.mnemonic).getD (defaultTrackingData anchor.mnemonic)
  let fetchList := if trackingObj.seenCounter = 0 then st.2 ++ [anchor] else st.2
  (mapSet st.1 anchor.mnemonic { trackingObj with seenCounter := trackingObj.seenCounter + 1 },
   fetchList)

/-- All anchors of the document, in section order. -/
def allAnchors (sections : List SectionDataForProcess) : List AnchorDataForProcess :=
  sections.flatMap (fun s => s.referenceDataInAnchors)

/-- The synchronous bookkeeping walk: the tracking map after all
`sectionDataMapper` calls, and the list of anchors for which a fetch was
started, in order. -/
def runTrackingPhase (sections : List SectionDataForProcess) :
    TrackingMap × List AnchorDataForProcess :=
  (allAnchors sections).foldl processAnchor ([], [])

/-- The settled outcome of `fetchAndParseAnchorReferenceOrThrow` for a fetch
URL: the parsed reference data, an `Error` result, or a rejection. -/
abbrev FetchOracle := String → JsOutcome PublicationRefData

/-- The continuation attached to a first sighting's fetch promise: on
`opErrored(opRes)` the sentinel is substituted, otherwise
`opRes.res.parsedContent` is used. The three cases are the `wrapAsyncOp`
shapes of the wrapped fetch-and-parse call on the anchor's derived URL. -/
def resolveRefContents (oracle : FetchOracle) (anchor : AnchorDataForProcess) : String :=
  match oracle (buildAnchorRefExtractionData anchor.href).fetchUrl with
  | .value r => r.parsedContent
  | .errValue _ => UNABLE_TO_EXTRACT_REFERENCE
  | .thrown _ => UNABLE_TO_EXTRACT_REFERENCE

/-- One promise settlement: `trackingObj.refContents = refContents` on the
entry for that mnemonic. -/
def applyCompletion (tracking : TrackingMap) (c : String × String) : TrackingMap :=
  match mapGet tracking c.1 with
  | some obj => mapSet tracking c.1 { obj with refContents := c.2 }
  | none => tracking

/-- All fetch promises settling, in the given order. -/
def runCompletionPhase (oracle : FetchOracle) (tracking : TrackingMap)
    (order : List AnchorDataForProcess) : TrackingMap :=
  order.foldl (fun tm a => applyCompletion tm (a.mnemonic, resolveRefContents oracle a)) tracking

/-- `RefEntry` of the output. -/
structure RefEntry where
  mnemonic : String
  refContents : String
  deriving DecidableEq, Repr

/-- `BiblicalPassageRefEntry` of the output. -/
structure BiblicalPassageRefEntry where
  citation : String
  scripture : String
  references : List RefEntry
  deriving DecidableEq, Repr

/-- `BiblicalBookReferenceData`: the output object; the shared table is an
insertion-ordered JavaScript object. -/
structure BiblicalBookReferenceData where
  entries : List BiblicalPassageRefEntry
  sharedMnemonicReferences : StrMap String
  deriving DecidableEq, Repr

/-- The pointer emitted for a shared mnemonic occurrence. -/
def pointerString (mnemonic : String) : String :=
  "SEE: sharedMnemonicReferences[\"" ++ mnemonic ++ "\"]"

/-- One reference of the aggregation's `referenceDataInAnchors.map(...)`: on
`seenCounter > 1` the shared table receives the contents and a pointer is
emitted, otherwise the contents are inlined. The `getD` models the non-null
assertion `mnemonicExtractionTracking.get(mnemonic)!`. -/
def aggregateAnchor (tracking : TrackingMap)
    (acc : List RefEntry × StrMap String) (anchor : AnchorDataForProcess) :
    List RefEntry × StrMap String :=
  let trackingObj := (mapGet tracking anchor.mnemonic).getD (defaultTrackingData anchor.mnemonic)
  if 1 < trackingObj.seenCounter then
    (acc.1 ++ [{ mnemonic := anchor.mnemonic, refContents := pointerString anchor.mnemonic }],
     mapSet acc.2 anchor.mnemonic trackingObj.refContents)
  else
    (acc.1 ++ [{ mnemonic := anchor.mnemonic, refContents := trackingObj.refContents }], acc.2)

/-- One iteration of the final `reduce` of `_extractBibleReferences`: the
section's references are built (threading the shared table through) and one
`BiblicalPassageRefEntry` is pushed. -/
def aggregateSectionStep (scriptureOf : SectionDataForProcess → String)
    (tracking : TrackingMap) (acc : BiblicalBookReferenceData)
    (sectionData : SectionDataForProcess) : BiblicalBookReferenceData :=
  let step := sectionData.referenceDataInAnchors.foldl (aggregateAnchor tracking)
    ([], acc.sharedMnemonicReferences)
  { entries := acc.entries ++
      [{ citation := sectionData.sectionTitle, scripture := scriptureOf sectionData,
         references := step.1 }],
    sharedMnemonicReferences := step.2 }

/-- The final `reduce` of `_extractBibleReferences`. `scriptureOf` models
`extractPubNwtstyReferenceAsText($([id*=sectionKey]), $)`, a DOM lookup in the
surrounding document outside the deduplication engine. -/
def aggregatePhase (scriptureOf : SectionDataForProcess → String)
    (sections : List SectionDataForProcess) (tracking : TrackingMap) :
    BiblicalBookReferenceData :=
  sections.foldl (aggregateSectionStep scriptureOf tracking)
    { entries := [], sharedMnemonicReferences := [] }

/-- `_extractBibleReferences` with an explicit settlement order for the fetch
promises (the order in which the distinct mnemonics' fetches complete). -/
def extractBibleReferencesWithOrder (scriptureOf : SectionDataForProcess → String)
    (oracle : FetchOracle) (sections : List SectionDataForProcess)
    (order : List AnchorDataForProcess) : BiblicalBookReferenceData :=
  aggregatePhase scriptureOf sections
    (runCompletionPhase oracle (runTrackingPhase sections).1 order)

/-- `_extractBibleReferences` with the canonical settlement order (the order
in which the fetches were started). -/
def extractBibleReferences (scriptureOf : SectionDataForProcess → String)
    (oracle : FetchOracle) (sections : List SectionDataForProcess) :
    BiblicalBookReferenceData :=
  extractBibleReferencesWithOrder scriptureOf oracle sections (runTrackingPhase sections).2

/-- The number of Anchor-Resolver invocations of a run. -/
def fetchCount (sections : List SectionDataForProcess) : Nat :=
  (runTrackingPhase sections).2.length

/-- The tracked occurrence count of a mnemonic (0 when untracked). -/
def seenCount (tracking : TrackingMap) (m : String) : Nat :=
  match mapGet tracking m with
  | some e => e.seenCounter
  | none => 0

/-- The number of anchors bearing mnemonic `m` across all sections. -/
def occCount (sections : List SectionDataForProcess) (m : String) : Nat :=
  ((allAnchors sections).map (·.mnemonic)).count m

/-- The first anchor of the document bearing mnemonic `m` — the one whose
fetch the deduplicator starts. -/
def firstAnchorOf (sections : List SectionDataForProcess) (m : String) :
    Option AnchorDataForProcess :=
  (allAnchors sections).find? (fun a => a.mnemonic == m)

/-- The emitted `refContents` of every occurrence of mnemonic `m` in the
output, in order. -/
def refEntriesFor (out : BiblicalBookReferenceData) (m : String) : List String :=
  out.entries.flatMap (fun e => (e.references.filter (fun r => r.mnemonic == m)).map
    (fun r => r.refContents))

/-! ## Map lemmas -/

theorem mapGet_mapSet {α : Type} (l : StrMap α) (k : String) (v : α) (m : String) :
    mapGet (mapSet l k v) m = if k = m then some v else mapGet l m := by
  induction l with
  | nil => simp [mapGet, mapSet]
  | cons p rest ih =>
      by_cases hpk : p.1 = k
      · rw [mapSet, if_pos hpk]
        by_cases hkm : k = m
        · simp [mapGet, hkm]
        · simp [mapGet, hkm, hpk]
      · rw [mapSet, if_neg hpk]
        by_cases hpm : p.1 = m
        · have hkm : ¬ k = m := fun h => hpk (hpm.trans h.symm)
          simp [mapGet, hpm, hkm]
        · simp [mapGet, hpm, ih]

theorem mapGet_eq_none_iff {α : Type} (l : StrMap α) (m : String) :
    mapGet l m = none ↔ m ∉ mapKeys l := by
  induction l with
  | nil => simp [mapGet]
  | cons p rest ih =>
      by_cases hpm : p.1 = m
      · simp [mapGet, hpm]
      · simp [mapGet, hpm, ih, Ne.symm hpm]

theorem mapGet_mem {α : Type} {l : StrMap α} {m : String} {v : α}
    (h : mapGet l m = some v) : (m, v) ∈ l := by
  induction l with
  | nil => simp [mapGet] at h
  | cons p rest ih =>
      rcases p with ⟨k, w⟩
      by_cases hpm : k = m
      · subst hpm
        simp [mapGet] at h
        subst h
        exact List.mem_cons_self _ _
      · simp only [mapGet, if_neg hpm] at h
        exact List.mem_cons_of_mem _ (ih h)

theorem mem_keys_of_mapGet_some {α : Type} {l : StrMap α} {m : String} {v : α}
    (h : mapGet l m = some v) : m ∈ mapKeys l := by
  by_contra hmem
  rw [← mapGet_eq_none_iff] at hmem
  simp [hmem] at h

theorem mapKeys_mapSet_of_mem {α : Type} {l : StrMap α} {k : String} (v : α)
    (h : k ∈ mapKeys l) : mapKeys (mapSet l k v) = mapKeys l := by
  induction l with
  | nil => simp at h
  | cons p rest ih =>
      by_cases hpk : p.1 = k
      · simp [mapSet, hpk]
      · have h' : k = p.1 ∨ k ∈ mapKeys rest := by
          rw [show mapKeys (p :: rest) = p.1 :: mapKeys rest from rfl] at h
          exact List.mem_cons.mp h
        rcases h' with h' | h'
        · exact absurd h'.symm hpk
        · simp [mapSet, if_neg hpk, ih h']

theorem mapKeys_mapSet_of_not_mem {α : Type} {l : StrMap α} {k : String} (v : α)
    (h : k ∉ mapKeys l) : mapKeys (mapSet l k v) = mapKeys l ++ [k] := by
  induction l with
  | nil => simp [mapSet]
  | cons p rest ih =>
      have hpk : ¬ p.1 = k := by
        intro hh
        exact h (by simp [hh])
      have hrest : k ∉ mapKeys rest := fun hh => h (by simp [hh])
      simp [mapSet, if_neg hpk, ih hrest]

theorem nodup_mapKeys_mapSet {α : Type} {l : StrMap α} (k : String) (v : α)
    (h : (mapKeys l).Nodup) : (mapKeys (mapSet l k v)).Nodup := by
  by_cases hk : k ∈ mapKeys l
  · rw [mapKeys_mapSet_of_mem v hk]
    exact h
  · rw [mapKeys_mapSet_of_not_mem v hk]
    simp [List.nodup_append, h, hk]

theorem filter_length_one_of_nodup_mapGet {α : Type} {l : StrMap α} {m : String} {v : α}
    (hnd : (mapKeys l).Nodup) (h : mapGet l m = some v) :
    (l.filter (fun p => p.1 == m)).length = 1 := by
  induction l with
  | nil => simp [mapGet] at h
  | cons p rest ih =>
      simp only [mapKeys, List.map_cons, List.nodup_cons] at hnd
      by_cases hpm : p.1 = m
      · have hrest : rest.filter (fun q => q.1 == m) = [] := by
          apply List.filter_eq_nil_iff.mpr
          intro q hq
          simp only [beq_iff_eq]
          intro hqm
          refine hnd.1 ?_
          rw [hpm, ← hqm]
          exact List.mem_map_of_mem Prod.fst hq
        simp [List.filter_cons, hpm, hrest]
      · have hh : mapGet rest m = some v := by
          simpa [mapGet, hpm] using h
        simpa [List.filter_cons, show (p.1 == m) = false by simpa using hpm]
          using ih hnd.2 hh

/-! ## C10: `wrapAsyncOp` result shapes -/

/-- C10. Every `wrapAsyncOp`-wrapped operation fulfills (its `try`/`catch`
leaves no throwing path, so the model is a total function into `OpResult`)
with exactly one of two mutually exclusive shapes: `{ err: null, res: value }`
when the inner function returns a non-`Error` value, and
`{ err: Error, res: null }` when it returns an `Error` value or
throws/rejects; `err` and `res` are never both null and never both
non-null. -/
theorem c10_wrapAsyncOp_shapes {A T : Type} (asyncFunc : A → JsOutcome T) (args : A) :
    ((∃ t, asyncFunc args = JsOutcome.value t ∧
        wrapAsyncOp asyncFunc args = { err := none, res := some t }) ∨
      (∃ e, (asyncFunc args = JsOutcome.errValue e ∨ asyncFunc args = JsOutcome.thrown e) ∧
        wrapAsyncOp asyncFunc args = { err := some e, res := none })) ∧
    (wrapAsyncOp asyncFunc args).res.isSome = !(opErrored (wrapAsyncOp asyncFunc args)) := by
  cases h : asyncFunc args <;> simp [wrapAsyncOp, opErrored, h]

/-! ## C5: the publication classifier -/

/-- C5. The classifier tests the two marker tokens as whole-word,
case-insensitive matches of `articleClasses`; a `Watchtower` match takes
precedence over `BibleStudyEdition`; every input yields one of the three
kinds (the classifier cannot throw); and the three scenario inputs classify
as stated. The last two conjuncts add a case-insensitivity and a
whole-word-boundary check point. -/
theorem c5_classifier_precedence_and_scenarios (content : String)
    (item otherItem : BasePublicationItem)
    (hW : (detectReferenceDataType item).isPubW = true) :
    pickStrategyKind (detectReferenceDataType item) = PublicationKind.Watchtower ∧
    (pickStrategyKind (detectReferenceDataType otherItem) = PublicationKind.Watchtower ∨
      pickStrategyKind (detectReferenceDataType otherItem) = PublicationKind.BibleStudyEdition ∨
      pickStrategyKind (detectReferenceDataType otherItem) = PublicationKind.Default) ∧
    pickStrategyKind (detectReferenceDataType ⟨content, "foo pub-w bar"⟩) =
      PublicationKind.Watchtower ∧
    pickStrategyKind (detectReferenceDataType ⟨content, "pub-nwtsty"⟩) =
      PublicationKind.BibleStudyEdition ∧
    pickStrategyKind (detectReferenceDataType ⟨content, "other"⟩) =
      PublicationKind.Default ∧
    pickStrategyKind (detectReferenceDataType ⟨content, "PUB-W"⟩) =
      PublicationKind.Watchtower ∧
    pickStrategyKind (detectReferenceDataType ⟨content, "pub-west pub-nwtstyx"⟩) =
      PublicationKind.Default := by
  refine ⟨by simp [pickStrategyKind, hW], ?_, rfl, rfl, rfl, rfl, rfl⟩
  unfold pickStrategyKind
  split
  · exact Or.inl rfl
  · split
    · exact Or.inr (Or.inl rfl)
    · exact Or.inr (Or.inr rfl)

/-- Witness for C5 at a concrete input where both markers match. -/
theorem c5_witness :
    (detectReferenceDataType ⟨"", "pub-w pub-nwtsty"⟩).isPubW = true ∧
    pickStrategyKind (detectReferenceDataType ⟨"", "pub-w pub-nwtsty"⟩) =
      PublicationKind.Watchtower :=
  ⟨rfl, (c5_classifier_precedence_and_scenarios "" ⟨"", "pub-w pub-nwtsty"⟩ ⟨"", ""⟩ rfl).1⟩

/-! ## C6: payload validation -/

/-- C6 counterexample. A payload with two well-formed items is accepted by
the validator and parsed successfully, contradicting the claim that a
payload is valid only with exactly one item; and on an empty `items` array
the validator itself throws a `TypeError` (reading a property of the
`undefined` first item) instead of reporting invalid. -/
theorem c6_counterexample :
    isJsonContentAcceptableForReferenceExtraction
        ⟨some [⟨some "c", some "w"⟩, ⟨some "c2", some "w2"⟩]⟩ = Except.ok true ∧
    parseAnchorRefDataOrThrow (fun _ c => c)
        ⟨some [⟨some "c", some "w"⟩, ⟨some "c2", some "w2"⟩]⟩ =
      Except.ok { isPubW := false, isPubNwtsty := false, parsedContent := "c" } ∧
    isJsonContentAcceptableForReferenceExtraction ⟨some []⟩ =
      Except.error (JsError.typeError
        "cannot read properties of undefined (reading content)") :=
  ⟨rfl, rfl, rfl⟩

/-- C6 amended. The validator accepts a payload whose `items` array is
non-empty and whose first item has non-empty string `content` and
`articleClasses` (extra items are allowed); a missing or empty `items` array
makes the validator itself throw a `TypeError` (converted into a typed
failure by the `wrapAsyncOp` boundary upstream); and for a non-empty `items`
array, `parseAnchorRefDataOrThrow` succeeds or throws the malformed-payload
`Error` exactly according to the first item's two field checks. -/
theorem c6_amended (extract : PublicationRefDetectionData → String → String)
    (json : RawPublicationPayload) :
    (json.items = none →
      isJsonContentAcceptableForReferenceExtraction json =
        Except.error (JsError.typeError "json.items is not iterable")) ∧
    (json.items = some [] →
      isJsonContentAcceptableForReferenceExtraction json =
        Except.error (JsError.typeError
          "cannot read properties of undefined (reading content)")) ∧
    (∀ item rest, json.items = some (item :: rest) →
      (nonEmptyStringField item.content && nonEmptyStringField item.articleClasses) = true →
      parseAnchorRefDataOrThrow extract json =
        Except.ok (buildPublicationRefData extract (toBasePublicationItem item))) ∧
    (∀ item rest, json.items = some (item :: rest) →
      (nonEmptyStringField item.content && nonEmptyStringField item.articleClasses) = false →
      parseAnchorRefDataOrThrow extract json =
        Except.error (JsError.errorObj
          "JSON content for reference doesn't match the expected format.")) := by
  obtain ⟨items⟩ := json
  refine ⟨?_, ?_, ?_, ?_⟩
  · rintro rfl
    rfl
  · rintro rfl
    rfl
  · rintro item rest rfl hfields
    unfold parseAnchorRefDataOrThrow
    rw [show isJsonContentAcceptableForReferenceExtraction ⟨some (item :: rest)⟩ =
        Except.ok (nonEmptyStringField item.content && nonEmptyStringField item.articleClasses)
      from rfl, hfields]
    rfl
  · rintro item rest rfl hfields
    unfold parseAnchorRefDataOrThrow
    rw [show isJsonContentAcceptableForReferenceExtraction ⟨some (item :: rest)⟩ =
        Except.ok (nonEmptyStringField item.content && nonEmptyStringField item.articleClasses)
      from rfl, hfields]
    rfl

/-- Witness for C6 amended at a concrete single-item payload. -/
theorem c6_amended_witness :
    parseAnchorRefDataOrThrow (fun _ c => c) ⟨some [⟨some "x", some "y"⟩]⟩ =
      Except.ok (buildPublicationRefData (fun _ c => c)
        (toBasePublicationItem ⟨some "x", some "y"⟩)) :=
  (c6_amended (fun _ c => c) ⟨some [⟨some "x", some "y"⟩]⟩).2.2.1 ⟨some "x", some "y"⟩ [] rfl rfl

/-! ## C7: a missing anchor `href` does not throw -/

/-- C7 counterexample. For an anchor without an `href` attribute,
`buildAnchorRefExtractionData` returns normally (no throw) with the empty
source href and the bare site base URL as fetch target; resolution proceeds
to the network call — the outcome is whatever the fetch of the base URL
yields — rather than throwing before it. -/
theorem c7_counterexample :
    buildAnchorRefExtractionData none =
      { sourceHref := "", fetchUrl := "https://wol.jw.org" } ∧
    resolveRefContents
        (fun url => if url = "https://wol.jw.org"
          then JsOutcome.value ⟨false, false, "base page payload"⟩
          else JsOutcome.thrown "network")
        { mnemonic := "Mn 1:1", href := none } = "base page payload" := by
  constructor
  · simp [buildAnchorRefExtractionData, WOL_URL]
  · simp [resolveRefContents, buildAnchorRefExtractionData, WOL_URL]

/-- C7 amended. An anchor lacking `href` is not treated as a structural
error: the attribute defaults to the empty string, the derived fetch URL is
the bare site base URL, the network call is attempted with it, and a failure
there is handled by the ordinary sentinel substitution. -/
theorem c7_amended (m : String) (oracle : FetchOracle) :
    buildAnchorRefExtractionData none = { sourceHref := "", fetchUrl := WOL_URL } ∧
    resolveRefContents oracle { mnemonic := m, href := none } =
      (match oracle WOL_URL with
        | .value r => r.parsedContent
        | .errValue _ => UNABLE_TO_EXTRACT_REFERENCE
        | .thrown _ => UNABLE_TO_EXTRACT_REFERENCE) := by
  have hbuild : buildAnchorRefExtractionData none =
      { sourceHref := "", fetchUrl := WOL_URL } := by
    simp [buildAnchorRefExtractionData, WOL_URL]
  exact ⟨hbuild, by rw [resolveRefContents, hbuild]⟩

/-! ## C8: the BibleStudyEdition strategy on the scenario input -/

/-- The spec scenario input `<span class="sl">a</span><span class="b">ref</span>text`. -/
def c8ScenarioInput : List DomNode :=
  [DomNode.elem "span" ["sl"] [DomNode.txt "a"],
   DomNode.elem "span" ["b"] [DomNode.txt "ref"],
   DomNode.txt "text"]

/-- The input with the `.b` node as an anchor element instead of a span. -/
def c8AnchorInput : List DomNode :=
  [DomNode.elem "span" ["sl"] [DomNode.txt "a"],
   DomNode.elem "a" ["b"] [DomNode.txt "ref"],
   DomNode.txt "text"]

/-- C8 counterexample. On the scenario input the strategy produces
`"a reftexta reftexta ref"`, not `"a text"`: the removal selector
`a.fn, a.b` requires an anchor tag, so the `span` with class `b` is kept and
its text `ref` remains; and the string entry's `context = $('*')` makes
`context.text()` concatenate the subtree text of `html`, `body` and each
span on top of each other, duplicating the content. -/
theorem c8_counterexample :
    extractPubNwtstyReferenceAsText c8ScenarioInput = "a reftexta reftexta ref" ∧
    ("a reftexta reftexta ref" : String) ≠ "a text" :=
  ⟨rfl, by decide⟩

/-- C8 amended. Only anchor (`a`) elements carrying class `fn` or `b` are
removed — the scenario's `span` with class `b` is left in place (the same
node as an anchor would be removed) — and the space-only span is appended as
the last child of each `.sl, .sz` element; but on the string entry the live
strategy's `context = $('*')` selection makes `context.text()` concatenate
every selected element's subtree text (`html`, `body`, and each span), so
the scenario input yields `"a reftexta reftexta ref"`. -/
theorem c8_amended :
    removeAnchorNodes c8ScenarioInput = c8ScenarioInput ∧
    removeAnchorNodes c8AnchorInput =
      [DomNode.elem "span" ["sl"] [DomNode.txt "a"], DomNode.txt "text"] ∧
    appendSpaceNodes c8ScenarioInput =
      [DomNode.elem "span" ["sl"]
        [DomNode.txt "a", DomNode.elem "span" [] [DomNode.txt " "]],
       DomNode.elem "span" ["b"] [DomNode.txt "ref"],
       DomNode.txt "text"] ∧
    extractPubNwtstyReferenceAsText c8ScenarioInput = "a reftexta reftexta ref" :=
  ⟨rfl, rfl, rfl, rfl⟩

/-! ## Walk lemmas: the bookkeeping phase -/

theorem mem_of_mem_mapSet {α : Type} {l : StrMap α} {k : String} {v : α} {p : String × α}
    (h : p ∈ mapSet l k v) : p = (k, v) ∨ p ∈ l := by
  induction l with
  | nil => simpa [mapSet] using h
  | cons q rest ih =>
      by_cases hqk : q.1 = k
      · rw [mapSet, if_pos hqk] at h
        rcases List.mem_cons.mp h with h | h
        · exact Or.inl h
        · exact Or.inr (List.mem_cons_of_mem _ h)
      · rw [mapSet, if_neg hqk] at h
        rcases List.mem_cons.mp h with h | h
        · exact Or.inr (h ▸ List.mem_cons_self _ _)
        · rcases ih h with h | h
          · exact Or.inl h
          · exact Or.inr (List.mem_cons_of_mem _ h)

/-- The anchors of the list whose mnemonic has not been seen before — the
ones whose sighting starts a fetch. -/
def firstOccurrences : List AnchorDataForProcess → List String → List AnchorDataForProcess
  | [], _ => []
  | a :: as, seen =>
      if a.mnemonic ∈ seen then firstOccurrences as seen
      else a :: firstOccurrences as (a.mnemonic :: seen)

theorem firstOccurrences_congr : ∀ (l : List AnchorDataForProcess) (s₁ s₂ : List String),
    (∀ x, x ∈ s₁ ↔ x ∈ s₂) → firstOccurrences l s₁ = firstOccurrences l s₂ := by
  intro l
  induction l with
  | nil => intro s₁ s₂ _; rfl
  | cons a as ih =>
      intro s₁ s₂ hs
      by_cases hm : a.mnemonic ∈ s₁
      · rw [firstOccurrences, if_pos hm, firstOccurrences, if_pos ((hs _).mp hm)]
        exact ih _ _ hs
      · rw [firstOccurrences, if_neg hm, firstOccurrences,
          if_neg (fun hh => hm ((hs _).mpr hh))]
        congr 1
        refine ih _ _ (fun x => ?_)
        simp [hs x]

theorem firstOccurrences_mnemonics : ∀ (l : List AnchorDataForProcess) (seen : List String),
    ((firstOccurrences l seen).map (·.mnemonic)).Nodup ∧
    (∀ m, m ∈ (firstOccurrences l seen).map (·.mnemonic) ↔
      (m ∉ seen ∧ m ∈ l.map (·.mnemonic))) := by
  intro l
  induction l with
  | nil => intro seen; simp [firstOccurrences]
  | cons a as ih =>
      intro seen
      by_cases hm : a.mnemonic ∈ seen
      · rw [firstOccurrences, if_pos hm]
        obtain ⟨ihn, ihm⟩ := ih seen
        refine ⟨ihn, fun m => ?_⟩
        rw [ihm m]
        simp only [List.map_cons, List.mem_cons]
        constructor
        · rintro ⟨h1, h2⟩
          exact ⟨h1, Or.inr h2⟩
        · rintro ⟨h1, h2 | h2⟩
          · exact absurd (h2 ▸ hm) h1
          · exact ⟨h1, h2⟩
      · rw [firstOccurrences, if_neg hm]
        obtain ⟨ihn, ihm⟩ := ih (a.mnemonic :: seen)
        constructor
        · simp only [List.map_cons, List.nodup_cons]
          refine ⟨fun hmem => ?_, ihn⟩
          have := (ihm a.mnemonic).mp hmem
          simp at this
        · intro m
          simp only [List.map_cons, List.mem_cons, ihm m]
          by_cases hma : m = a.mnemonic
          · subst hma
            simp [hm]
          · simp only [hma, List.mem_cons, false_or]

theorem firstOccurrences_find? : ∀ (l : List AnchorDataForProcess) (seen : List String)
    (m : String), m ∉ seen →
    (firstOccurrences l seen).find? (fun a => a.mnemonic == m) =
      l.find? (fun a => a.mnemonic == m) := by
  intro l
  induction l with
  | nil => intro seen m _; rfl
  | cons a as ih =>
      intro seen m hm
      by_cases hmem : a.mnemonic ∈ seen
      · rw [firstOccurrences, if_pos hmem]
        have hne : (a.mnemonic == m) = false := by
          simp only [beq_eq_false_iff_ne, ne_eq]
          rintro rfl
          exact hm hmem
        rw [List.find?_cons_of_neg _ (by simp [hne]), ih seen m hm]
      · rw [firstOccurrences, if_neg hmem]
        by_cases hma : a.mnemonic = m
        · rw [List.find?_cons_of_pos _ (by simp [hma]),
            List.find?_cons_of_pos _ (by simp [hma])]
        · rw [List.find?_cons_of_neg _ (by simp [hma]),
            List.find?_cons_of_neg _ (by simp [hma])]
          refine ih _ m ?_
          simp [Ne.symm hma, hm]

theorem filter_eq_find?_toList {α : Type} (f : α → String) (m : String) :
    ∀ (l : List α), (l.map f).Nodup →
    l.filter (fun a => f a == m) = (l.find? (fun a => f a == m)).toList := by
  intro l
  induction l with
  | nil => intro _; rfl
  | cons a as ih =>
      intro hnd
      simp only [List.map_cons, List.nodup_cons] at hnd
      by_cases hfa : f a = m
      · have hrest : as.filter (fun b => f b == m) = [] := by
          refine List.filter_eq_nil_iff.mpr (fun b hb => ?_)
          simp only [beq_iff_eq]
          intro hbm
          exact hnd.1 (by rw [hfa, ← hbm]; exact List.mem_map_of_mem f hb)
        rw [List.filter_cons_of_pos (by simp [hfa]),
          List.find?_cons_of_pos _ (by simp [hfa]), hrest]
        rfl
      · rw [List.filter_cons_of_neg (by simp [hfa]),
          List.find?_cons_of_neg _ (by simp [hfa])]
        exact ih hnd.2

/-- The invariant of the tracking map during the walk: each entry's
`mnemonic` field is its key, its contents have not been written yet, and its
counter is at least one. -/
def EntryShape (tm : TrackingMap) : Prop :=
  ∀ p ∈ tm, p.2.mnemonic = p.1 ∧ p.2.refContents = "" ∧ 1 ≤ p.2.seenCounter

theorem processAnchor_of_lookup_some {tm : TrackingMap} {fl : List AnchorDataForProcess}
    {a : AnchorDataForProcess} {e : MnemonicExtractionTrackingData}
    (h : mapGet tm a.mnemonic = some e) (h1 : 1 ≤ e.seenCounter) :
    processAnchor (tm, fl) a =
      (mapSet tm a.mnemonic { e with seenCounter := e.seenCounter + 1 }, fl) := by
  have hne : ¬ (e.seenCounter = 0) := by omega
  simp [processAnchor, h, hne]

theorem processAnchor_of_lookup_none {tm : TrackingMap} {fl : List AnchorDataForProcess}
    {a : AnchorDataForProcess} (h : mapGet tm a.mnemonic = none) :
    processAnchor (tm, fl) a =
      (mapSet tm a.mnemonic ⟨a.mnemonic, "", 1⟩, fl ++ [a]) := by
  simp [processAnchor, h, defaultTrackingData]

theorem trackingWalk_spec : ∀ (anchors : List AnchorDataForProcess) (tm : TrackingMap)
    (fl : List AnchorDataForProcess), EntryShape tm → (mapKeys tm).Nodup →
    EntryShape (anchors.foldl processAnchor (tm, fl)).1 ∧
    (mapKeys (anchors.foldl processAnchor (tm, fl)).1).Nodup ∧
    (∀ m, seenCount (anchors.foldl processAnchor (tm, fl)).1 m
        = seenCount tm m + (anchors.map (·.mnemonic)).count m) ∧
    (∀ m, m ∈ mapKeys (anchors.foldl processAnchor (tm, fl)).1 ↔
        m ∈ mapKeys tm ∨ m ∈ anchors.map (·.mnemonic)) ∧
    (anchors.foldl processAnchor (tm, fl)).2 = fl ++ firstOccurrences anchors (mapKeys tm) := by
  intro anchors
  induction anchors with
  | nil =>
      intro tm fl hshape hnd
      exact ⟨hshape, hnd, by simp, by simp, by simp [firstOccurrences]⟩
  | cons a as ih =>
      intro tm fl hshape hnd
      rcases hget : mapGet tm a.mnemonic with _ | e
      · -- first sighting: a fetch is started
        rw [List.foldl_cons, processAnchor_of_lookup_none hget]
        have hkeymem : a.mnemonic ∉ mapKeys tm := (mapGet_eq_none_iff tm a.mnemonic).mp hget
        have hshape' : EntryShape (mapSet tm a.mnemonic ⟨a.mnemonic, "", 1⟩) := by
          intro p hp
          rcases mem_of_mem_mapSet hp with hp | hp
          · subst hp; exact ⟨rfl, rfl, le_refl 1⟩
          · exact hshape p hp
        have hkeys' : mapKeys (mapSet tm a.mnemonic ⟨a.mnemonic, "", 1⟩)
            = mapKeys tm ++ [a.mnemonic] := mapKeys_mapSet_of_not_mem _ hkeymem
        have hnd' : (mapKeys (mapSet tm a.mnemonic ⟨a.mnemonic, "", 1⟩)).Nodup :=
          nodup_mapKeys_mapSet _ _ hnd
        obtain ⟨s1, s2, s3, s4, s5⟩ := ih _ (fl ++ [a]) hshape' hnd'
        refine ⟨s1, s2, ?_, ?_, ?_⟩
        · intro m
          rw [s3 m]
          have hsc : seenCount (mapSet tm a.mnemonic ⟨a.mnemonic, "", 1⟩) m
              = if a.mnemonic = m then 1 else seenCount tm m := by
            unfold seenCount
            rw [mapGet_mapSet]
            by_cases hm : a.mnemonic = m
            · simp [hm]
            · simp [hm]
          rw [hsc]
          by_cases hm : a.mnemonic = m
          · have h0 : seenCount tm m = 0 := by
              unfold seenCount
              rw [← hm, hget]
            rw [if_pos hm, h0]
            simp only [List.map_cons, List.count_cons, hm, beq_self_eq_true, if_true]
            omega
          · rw [if_neg hm]
            simp [List.map_cons, List.count_cons,
              show (a.mnemonic == m) = false by simpa using hm]
        · intro m
          rw [s4 m, hkeys']
          simp only [List.mem_append, List.mem_singleton, List.map_cons, List.mem_cons]
          tauto
        · rw [s5, hkeys', firstOccurrences, if_neg hkeymem]
          rw [List.append_assoc]
          congr 1
          rw [List.singleton_append]
          congr 1
          refine firstOccurrences_congr _ _ _ (fun x => ?_)
          simp only [List.mem_append, List.mem_singleton, List.mem_cons]
          tauto
      · -- repeat sighting: no fetch
        have hpmem : (a.mnemonic, e) ∈ tm := mapGet_mem hget
        have hmem : a.mnemonic ∈ mapKeys tm := mem_keys_of_mapGet_some hget
        have hes := hshape _ hpmem
        rw [List.foldl_cons, processAnchor_of_lookup_some hget hes.2.2]
        have hshape' : EntryShape (mapSet tm a.mnemonic
            { e with seenCounter := e.seenCounter + 1 }) := by
          intro p hp
          rcases mem_of_mem_mapSet hp with hp | hp
          · subst hp
            exact ⟨hes.1, hes.2.1, Nat.succ_le_succ (Nat.zero_le _)⟩
          · exact hshape p hp
        have hkeys' : mapKeys (mapSet tm a.mnemonic
            { e with seenCounter := e.seenCounter + 1 }) = mapKeys tm :=
          mapKeys_mapSet_of_mem _ hmem
        have hnd' := hkeys' ▸ hnd
        obtain ⟨s1, s2, s3, s4, s5⟩ := ih _ fl hshape' hnd'
        refine ⟨s1, s2, ?_, ?_, ?_⟩
        · intro m
          rw [s3 m]
          have hsc : seenCount (mapSet tm a.mnemonic
              { e with seenCounter := e.seenCounter + 1 }) m
              = if a.mnemonic = m then e.seenCounter + 1 else seenCount tm m := by
            unfold seenCount
            rw [mapGet_mapSet]
            by_cases hm : a.mnemonic = m
            · simp [hm]
            · simp [hm]
          rw [hsc]
          by_cases hm : a.mnemonic = m
          · have h0 : seenCount tm m = e.seenCounter := by
              unfold seenCount
              rw [← hm, hget]
            rw [if_pos hm, h0]
            simp only [List.map_cons, List.count_cons, hm, beq_self_eq_true, if_true]
            omega
          · rw [if_neg hm]
            simp [List.map_cons, List.count_cons,
              show (a.mnemonic == m) = false by simpa using hm]
        · intro m
          rw [s4 m, hkeys']
          simp only [List.map_cons, List.mem_cons]
          constructor
          · rintro (h | h)
            · exact Or.inl h
            · exact Or.inr (Or.inr h)
          · rintro (h | h | h)
            · exact Or.inl h
            · exact Or.inl (h ▸ hmem)
            · exact Or.inr h
        · rw [s5, hkeys', firstOccurrences, if_pos hmem]

/-- The walk's result from the empty starting state. -/
theorem runTrackingPhase_spec (sections : List SectionDataForProcess) :
    EntryShape (runTrackingPhase sections).1 ∧
    (mapKeys (runTrackingPhase sections).1).Nodup ∧
    (∀ m, seenCount (runTrackingPhase sections).1 m = occCount sections m) ∧
    (∀ m, m ∈ mapKeys (runTrackingPhase sections).1 ↔
      m ∈ (allAnchors sections).map (·.mnemonic)) ∧
    (runTrackingPhase sections).2 = firstOccurrences (allAnchors sections) [] := by
  obtain ⟨s1, s2, s3, s4, s5⟩ := trackingWalk_spec (allAnchors sections) [] []
    (by intro p hp; simp at hp) (by simp)
  refine ⟨s1, s2, fun m => ?_, fun m => ?_, ?_⟩
  · rw [runTrackingPhase, s3 m]
    simp [seenCount, mapGet, occCount]
  · rw [runTrackingPhase, s4 m]
    simp [mapKeys]
  · rw [runTrackingPhase, s5]
    simp [mapKeys]

/-! ## C1: one fetch per distinct mnemonic -/

/-- C1. For every document, the number of Anchor-Resolver invocations (the
fetch list produced by the walk) equals the number of distinct mnemonics
across all sections' anchors, never the number of anchor occurrences; in
particular the document with sections `[[A,B],[B,A]]`, where `A` and `B` are
distinct mnemonics, issues exactly 2 fetches. -/
theorem c1_fetch_count_eq_distinct_mnemonics :
    (∀ sections, fetchCount sections =
      ((allAnchors sections).map (·.mnemonic)).dedup.length) ∧
    fetchCount
      [⟨"s1", "t1", [⟨"A", some "/l/a"⟩, ⟨"B", some "/l/b"⟩]⟩,
       ⟨"s2", "t2", [⟨"B", some "/l/b2"⟩, ⟨"A", some "/l/a2"⟩]⟩] = 2 := by
  constructor
  · intro sections
    obtain ⟨-, -, -, -, hfo⟩ := runTrackingPhase_spec sections
    obtain ⟨hnodup, hmem⟩ := firstOccurrences_mnemonics (allAnchors sections) []
    have hlen : fetchCount sections
        = ((firstOccurrences (allAnchors sections) []).map (·.mnemonic)).length := by
      rw [fetchCount, hfo, List.length_map]
    rw [hlen, ← List.toFinset_card_of_nodup hnodup,
      show ((firstOccurrences (allAnchors sections) []).map (·.mnemonic)).toFinset
          = ((allAnchors sections).map (·.mnemonic)).toFinset by
        ext x
        simp only [List.mem_toFinset]
        simpa using hmem x,
      List.card_toFinset]
  · rfl

/-! ## C4: occurrence counts are exact and fetch-order independent -/

theorem seenCount_applyCompletion (tm : TrackingMap) (c : String × String) (m : String) :
    seenCount (applyCompletion tm c) m = seenCount tm m := by
  unfold applyCompletion
  rcases h : mapGet tm c.1 with _ | obj
  · rfl
  · unfold seenCount
    rw [mapGet_mapSet]
    by_cases hc : c.1 = m
    · rw [if_pos hc, ← hc, h]
    · rw [if_neg hc]

theorem seenCount_runCompletionPhase (oracle : FetchOracle)
    (order : List AnchorDataForProcess) (tm : TrackingMap) (m : String) :
    seenCount (runCompletionPhase oracle tm order) m = seenCount tm m := by
  induction order generalizing tm with
  | nil => rfl
  | cons a rest ih =>
      rw [runCompletionPhase, List.foldl_cons]
      rw [show (List.foldl (fun tm a => applyCompletion tm
          (a.mnemonic, resolveRefContents oracle a))
          (applyCompletion tm (a.mnemonic, resolveRefContents oracle a)) rest)
        = runCompletionPhase oracle
            (applyCompletion tm (a.mnemonic, resolveRefContents oracle a)) rest from rfl]
      rw [ih, seenCount_applyCompletion]

/-- C4. After the bookkeeping walk, and regardless of which fetch
completions (in any order, for any fetch outcomes) have been applied, each
mnemonic's tracked occurrence count equals exactly the number of anchors
bearing that mnemonic across all sections: the count is pure synchronous
bookkeeping and does not depend on fetch completion order. -/
theorem c4_occurrence_count_exact_and_order_independent
    (sections : List SectionDataForProcess) (oracle : FetchOracle)
    (order : List AnchorDataForProcess) (m : String) :
    seenCount (runCompletionPhase oracle (runTrackingPhase sections).1 order) m
      = occCount sections m := by
  rw [seenCount_runCompletionPhase]
  exact (runTrackingPhase_spec sections).2.2.1 m

/-! ## Completion-phase lemmas -/

theorem mapGet_applyCompletion (tm : TrackingMap) (c : String × String) (m : String) :
    mapGet (applyCompletion tm c) m =
      if c.1 = m then (mapGet tm m).map (fun e => { e with refContents := c.2 })
      else mapGet tm m := by
  unfold applyCompletion
  rcases h : mapGet tm c.1 with _ | obj
  · by_cases hc : c.1 = m
    · rw [if_pos hc, ← hc, h]
      rfl
    · rw [if_neg hc]
  · rw [mapGet_mapSet]
    by_cases hc : c.1 = m
    · rw [if_pos hc, if_pos hc, ← hc, h]
      rfl
    · rw [if_neg hc, if_neg hc]

theorem mapKeys_applyCompletion (tm : TrackingMap) (c : String × String) :
    mapKeys (applyCompletion tm c) = mapKeys tm := by
  unfold applyCompletion
  rcases h : mapGet tm c.1 with _ | obj
  · rfl
  · exact mapKeys_mapSet_of_mem _ (mem_keys_of_mapGet_some h)

theorem mapKeys_runCompletionPhase (oracle : FetchOracle) (tm : TrackingMap)
    (order : List AnchorDataForProcess) :
    mapKeys (runCompletionPhase oracle tm order) = mapKeys tm := by
  induction order generalizing tm with
  | nil => rfl
  | cons a rest ih =>
      rw [runCompletionPhase, List.foldl_cons,
        show (List.foldl (fun tm a => applyCompletion tm
            (a.mnemonic, resolveRefContents oracle a))
          (applyCompletion tm (a.mnemonic, resolveRefContents oracle a)) rest)
          = runCompletionPhase oracle
              (applyCompletion tm (a.mnemonic, resolveRefContents oracle a)) rest from rfl,
        ih, mapKeys_applyCompletion]

theorem mapGet_runCompletionPhase_of_nodup (oracle : FetchOracle) (m : String) :
    ∀ (order : List AnchorDataForProcess) (tm : TrackingMap),
    (order.map (·.mnemonic)).Nodup →
    mapGet (runCompletionPhase oracle tm order) m =
      (match order.find? (fun a => a.mnemonic == m) with
        | some a => (mapGet tm m).map
            (fun e => { e with refContents := resolveRefContents oracle a })
        | none => mapGet tm m) := by
  intro order
  induction order with
  | nil => intro tm _; rfl
  | cons a rest ih =>
      intro tm hnd
      simp only [List.map_cons, List.nodup_cons] at hnd
      rw [runCompletionPhase, List.foldl_cons,
        show (List.foldl (fun tm a => applyCompletion tm
            (a.mnemonic, resolveRefContents oracle a))
          (applyCompletion tm (a.mnemonic, resolveRefContents oracle a)) rest)
          = runCompletionPhase oracle
              (applyCompletion tm (a.mnemonic, resolveRefContents oracle a)) rest from rfl,
        ih _ hnd.2]
      by_cases hm : a.mnemonic = m
      · have hfind : rest.find? (fun b => b.mnemonic == m) = none := by
          rw [List.find?_eq_none]
          intro b hb
          simp only [beq_iff_eq]
          intro hbm
          exact hnd.1 (by rw [hm, ← hbm]; exact List.mem_map_of_mem _ hb)
        rw [hfind, List.find?_cons_of_pos _ (by simp [hm]),
          mapGet_applyCompletion, if_pos hm]
      · rw [List.find?_cons_of_neg _ (by simp [hm])]
        have hget : mapGet (applyCompletion tm (a.mnemonic, resolveRefContents oracle a)) m
            = mapGet tm m := by
          rw [mapGet_applyCompletion, if_neg hm]
        rcases hfind : rest.find? (fun b => b.mnemonic == m) with _ | b
        · rw [hget]
        · rw [hget]

theorem strMap_ext {α : Type} : ∀ (l₁ l₂ : StrMap α), mapKeys l₁ = mapKeys l₂ →
    (mapKeys l₁).Nodup → (∀ m, mapGet l₁ m = mapGet l₂ m) → l₁ = l₂ := by
  intro l₁
  induction l₁ with
  | nil =>
      intro l₂ hk _ _
      cases l₂ with
      | nil => rfl
      | cons q t₂ => simp [mapKeys] at hk
  | cons p t ih =>
      intro l₂ hk hnd hget
      cases l₂ with
      | nil => simp [mapKeys] at hk
      | cons q t₂ =>
          simp only [mapKeys, List.map_cons, List.cons.injEq] at hk
          simp only [mapKeys, List.map_cons, List.nodup_cons] at hnd
          have hv : p.2 = q.2 := by
            have h := hget p.1
            rw [show mapGet (p :: t) p.1 = some p.2 by simp [mapGet],
              show mapGet (q :: t₂) p.1 = some q.2 by simp [mapGet, ← hk.1]] at h
            exact Option.some.inj h
          have hpq : p = q := Prod.ext hk.1 hv
          have htail : t = t₂ := by
            refine ih t₂ hk.2 hnd.2 (fun m => ?_)
            by_cases hm : m = p.1
            · have h₁ : mapGet t m = none := by
                refine (mapGet_eq_none_iff _ _).mpr ?_
                rw [hm]
                exact hnd.1
              have h₂ : mapGet t₂ m = none := by
                refine (mapGet_eq_none_iff _ _).mpr ?_
                rw [hm]
                rw [show (mapKeys t₂ : List String) = mapKeys t from hk.2.symm]
                exact hnd.1
              rw [h₁, h₂]
            · have h := hget m
              have hq1 : ¬ q.1 = m := by
                rw [← hk.1]
                exact fun hh => hm hh.symm
              have e₁ : mapGet (p :: t) m = mapGet t m := by
                simp only [mapGet]
                rw [if_neg (fun hh => hm hh.symm)]
              have e₂ : mapGet (q :: t₂) m = mapGet t₂ m := by
                simp only [mapGet]
                rw [if_neg hq1]
              rw [e₁, e₂] at h
              exact h
          rw [hpq, htail]

theorem find?_eq_of_perm_of_nodup {l₁ l₂ : List AnchorDataForProcess}
    (h : l₁.Perm l₂) (hnd : (l₂.map (·.mnemonic)).Nodup) (m : String) :
    l₁.find? (fun a => a.mnemonic == m) = l₂.find? (fun a => a.mnemonic == m) := by
  rcases h2 : l₂.find? (fun a => a.mnemonic == m) with _ | a
  · have h2' := List.find?_eq_none.mp h2
    rw [h2, List.find?_eq_none]
    intro x hx
    exact h2' x (h.mem_iff.mp hx)
  · have ha : a ∈ l₂ := List.mem_of_find?_eq_some h2
    have hpa : a.mnemonic = m := by simpa using List.find?_some h2
    have hsome : (l₁.find? (fun a => a.mnemonic == m)).isSome :=
      List.find?_isSome.mpr ⟨a, h.mem_iff.mpr ha, by simp [hpa]⟩
    rcases h1 : l₁.find? (fun a => a.mnemonic == m) with _ | b
    · rw [h1] at hsome
      simp at hsome
    · have hb : b ∈ l₂ := h.mem_iff.mp (List.mem_of_find?_eq_some h1)
      have hpb : b.mnemonic = m := by simpa using List.find?_some h1
      have hba : b = a := List.inj_on_of_nodup_map hnd hb ha (hpb.trans hpa.symm)
      rw [h1, h2, hba]

/-! ## Aggregation lemmas -/

/-- The tracking entry consulted by the aggregation (`.get(mnemonic)!`,
with the never-used default making the read total). -/
def trackEntryFor (tracking : TrackingMap) (m : String) : MnemonicExtractionTrackingData :=
  (mapGet tracking m).getD (defaultTrackingData m)

/-- The reference emitted for one anchor occurrence: a pointer when the
mnemonic was seen more than once, the tracked contents inline otherwise. -/
def refFor (tracking : TrackingMap) (anchor : AnchorDataForProcess) : RefEntry :=
  if 1 < (trackEntryFor tracking anchor.mnemonic).seenCounter then
    { mnemonic := anchor.mnemonic, refContents := pointerString anchor.mnemonic }
  else
    { mnemonic := anchor.mnemonic,
      refContents := (trackEntryFor tracking anchor.mnemonic).refContents }

/-- The shared-table write of one anchor occurrence. -/
def sharedStep (tracking : TrackingMap) (shared : StrMap String)
    (anchor : AnchorDataForProcess) : StrMap String :=
  if 1 < (trackEntryFor tracking anchor.mnemonic).seenCounter then
    mapSet shared anchor.mnemonic (trackEntryFor tracking anchor.mnemonic).refContents
  else shared

theorem refFor_mnemonic (tracking : TrackingMap) (anchor : AnchorDataForProcess) :
    (refFor tracking anchor).mnemonic = anchor.mnemonic := by
  unfold refFor
  split <;> rfl

theorem aggregateAnchor_eq (tracking : TrackingMap) (acc : List RefEntry × StrMap String)
    (anchor : AnchorDataForProcess) :
    aggregateAnchor tracking acc anchor =
      (acc.1 ++ [refFor tracking anchor], sharedStep tracking acc.2 anchor) := by
  unfold aggregateAnchor refFor sharedStep trackEntryFor
  by_cases hc : 1 < ((mapGet tracking anchor.mnemonic).getD
      (defaultTrackingData anchor.mnemonic)).seenCounter <;> simp [hc]

theorem aggregateAnchors_spec (tracking : TrackingMap) :
    ∀ (anchors : List AnchorDataForProcess) (refs : List RefEntry) (shared : StrMap String),
    anchors.foldl (aggregateAnchor tracking) (refs, shared)
      = (refs ++ anchors.map (refFor tracking),
         anchors.foldl (sharedStep tracking) shared) := by
  intro anchors
  induction anchors with
  | nil => intro refs shared; simp
  | cons a as ih =>
      intro refs shared
      rw [List.foldl_cons, aggregateAnchor_eq, List.foldl_cons, ih]
      simp

theorem aggregatePhase_go (scriptureOf : SectionDataForProcess → String)
    (tracking : TrackingMap) : ∀ (sections : List SectionDataForProcess)
    (acc : BiblicalBookReferenceData),
    sections.foldl (aggregateSectionStep scriptureOf tracking) acc =
      ⟨acc.entries ++ sections.map (fun sd =>
          ⟨sd.sectionTitle, scriptureOf sd, sd.referenceDataInAnchors.map (refFor tracking)⟩),
        (allAnchors sections).foldl (sharedStep tracking) acc.sharedMnemonicReferences⟩ := by
  intro sections
  induction sections with
  | nil => intro acc; simp [allAnchors]
  | cons sd rest ih =>
      intro acc
      rw [List.foldl_cons]
      have hstep : aggregateSectionStep scriptureOf tracking acc sd =
          ⟨acc.entries ++
              [⟨sd.sectionTitle, scriptureOf sd,
                sd.referenceDataInAnchors.map (refFor tracking)⟩],
            sd.referenceDataInAnchors.foldl (sharedStep tracking)
              acc.sharedMnemonicReferences⟩ := by
        unfold aggregateSectionStep
        rw [aggregateAnchors_spec]
        simp
      rw [hstep, ih]
      simp [allAnchors, List.flatMap_cons, List.foldl_append]

theorem aggregatePhase_spec (scriptureOf : SectionDataForProcess → String)
    (tracking : TrackingMap) (sections : List SectionDataForProcess) :
    aggregatePhase scriptureOf sections tracking =
      ⟨sections.map (fun sd =>
          ⟨sd.sectionTitle, scriptureOf sd, sd.referenceDataInAnchors.map (refFor tracking)⟩),
        (allAnchors sections).foldl (sharedStep tracking) []⟩ := by
  rw [aggregatePhase, aggregatePhase_go]
  rfl

theorem mapGet_sharedFold (tracking : TrackingMap) :
    ∀ (anchors : List AnchorDataForProcess) (s₀ : StrMap String) (m : String),
    mapGet (anchors.foldl (sharedStep tracking) s₀) m =
      if m ∈ anchors.map (·.mnemonic) ∧ 1 < (trackEntryFor tracking m).seenCounter
      then some (trackEntryFor tracking m).refContents
      else mapGet s₀ m := by
  intro anchors
  induction anchors with
  | nil => intro s₀ m; simp
  | cons a as ih =>
      intro s₀ m
      rw [List.foldl_cons, ih]
      by_cases hmas : m ∈ as.map (·.mnemonic) ∧ 1 < (trackEntryFor tracking m).seenCounter
      · have hmem : m ∈ (a :: as).map (·.mnemonic) := by
          rw [List.map_cons]
          exact List.mem_cons_of_mem _ hmas.1
        rw [if_pos hmas, if_pos ⟨hmem, hmas.2⟩]
      · rw [if_neg hmas]
        by_cases hma : a.mnemonic = m
        · subst hma
          unfold sharedStep
          by_cases hc : 1 < (trackEntryFor tracking a.mnemonic).seenCounter
          · rw [if_pos hc, if_pos ⟨by simp, hc⟩, mapGet_mapSet, if_pos rfl]
          · rw [if_neg hc, if_neg (fun hh => hc hh.2)]
        · have hcond : ¬ (m ∈ (a :: as).map (·.mnemonic)
              ∧ 1 < (trackEntryFor tracking m).seenCounter) := by
            rintro ⟨hmem, hc⟩
            rw [List.map_cons] at hmem
            rcases List.mem_cons.mp hmem with hh | hh
            · exact hma hh.symm
            · exact hmas ⟨hh, hc⟩
          rw [if_neg hcond]
          unfold sharedStep
          by_cases hc : 1 < (trackEntryFor tracking a.mnemonic).seenCounter
          · rw [if_pos hc, mapGet_mapSet, if_neg hma]
          · rw [if_neg hc]

theorem nodup_mapKeys_sharedFold (tracking : TrackingMap) :
    ∀ (anchors : List AnchorDataForProcess) (s₀ : StrMap String),
    (mapKeys s₀).Nodup → (mapKeys (anchors.foldl (sharedStep tracking) s₀)).Nodup := by
  intro anchors
  induction anchors with
  | nil => intro s₀ h; exact h
  | cons a as ih =>
      intro s₀ h
      rw [List.foldl_cons]
      refine ih _ ?_
      unfold sharedStep
      by_cases hc : 1 < (trackEntryFor tracking a.mnemonic).seenCounter
      · rw [if_pos hc]
        exact nodup_mapKeys_mapSet _ _ h
      · rw [if_neg hc]
        exact h

/-! ## The fully settled tracking map -/

/-- The tracking map after the walk and after every started fetch's promise
has settled (canonical order: the order the fetches were started in). -/
def finalTracking (oracle : FetchOracle) (sections : List SectionDataForProcess) :
    TrackingMap :=
  runCompletionPhase oracle (runTrackingPhase sections).1 (runTrackingPhase sections).2

theorem extractBibleReferences_eq_aggregate (scriptureOf : SectionDataForProcess → String)
    (oracle : FetchOracle) (sections : List SectionDataForProcess) :
    extractBibleReferences scriptureOf oracle sections
      = aggregatePhase scriptureOf sections (finalTracking oracle sections) := rfl

theorem mapGet_finalTracking (oracle : FetchOracle) (sections : List SectionDataForProcess)
    (m : String) (a : AnchorDataForProcess) (hfirst : firstAnchorOf sections m = some a) :
    mapGet (finalTracking oracle sections) m
      = some ⟨m, resolveRefContents oracle a, occCount sections m⟩ := by
  obtain ⟨hshape, hnd, hcount, hmemkeys, hfo⟩ := runTrackingPhase_spec sections
  have hfnd : ((runTrackingPhase sections).2.map (·.mnemonic)).Nodup := by
    rw [hfo]
    exact (firstOccurrences_mnemonics _ _).1
  have hfind : (runTrackingPhase sections).2.find? (fun x => x.mnemonic == m) = some a := by
    rw [hfo, firstOccurrences_find? _ _ _ (by simp)]
    exact hfirst
  have hocc : 1 ≤ occCount sections m := by
    have hmem : a ∈ allAnchors sections := List.mem_of_find?_eq_some hfirst
    have hma : a.mnemonic = m := by simpa using List.find?_some hfirst
    rw [occCount]
    refine List.count_pos_iff.mpr ?_
    rw [← hma]
    exact List.mem_map_of_mem _ hmem
  have hwalkget : mapGet (runTrackingPhase sections).1 m
      = some ⟨m, "", occCount sections m⟩ := by
    rcases hg : mapGet (runTrackingPhase sections).1 m with _ | e
    · exfalso
      have h := hcount m
      rw [show seenCount (runTrackingPhase sections).1 m = 0 by
        unfold seenCount; rw [hg]] at h
      omega
    · have hpe := hshape _ (mapGet_mem hg)
      have hsc : e.seenCounter = occCount sections m := by
        have := hcount m
        unfold seenCount at this
        rw [hg] at this
        exact this
      rcases e with ⟨em, er, es⟩
      simp only at hpe hsc
      rw [hpe.1, hpe.2.1, hsc]
  rw [finalTracking, mapGet_runCompletionPhase_of_nodup _ _ _ _ hfnd, hfind, hwalkget]
  rfl

/-! ## Output characterization helpers -/

theorem trackEntryFor_final (oracle : FetchOracle) (sections : List SectionDataForProcess)
    (m : String) (a : AnchorDataForProcess) (hfirst : firstAnchorOf sections m = some a) :
    trackEntryFor (finalTracking oracle sections) m
      = ⟨m, resolveRefContents oracle a, occCount sections m⟩ := by
  unfold trackEntryFor
  rw [mapGet_finalTracking oracle sections m a hfirst]
  rfl

theorem mnemonic_mem_of_firstAnchor {sections : List SectionDataForProcess} {m : String}
    {a : AnchorDataForProcess} (hfirst : firstAnchorOf sections m = some a) :
    m ∈ (allAnchors sections).map (·.mnemonic) := by
  have hmem : a ∈ allAnchors sections := List.mem_of_find?_eq_some hfirst
  have hma : a.mnemonic = m := by simpa using List.find?_some hfirst
  rw [← hma]
  exact List.mem_map_of_mem _ hmem

/-- The `refContents` emitted for any occurrence of `m` in the output. -/
theorem refContents_emitted (scriptureOf : SectionDataForProcess → String)
    (oracle : FetchOracle) (sections : List SectionDataForProcess)
    (m : String) (a : AnchorDataForProcess) (hfirst : firstAnchorOf sections m = some a) :
    ∀ e ∈ (extractBibleReferences scriptureOf oracle sections).entries,
      ∀ r ∈ e.references, r.mnemonic = m →
        r.refContents = (if 1 < occCount sections m then pointerString m
          else resolveRefContents oracle a) := by
  have hte := trackEntryFor_final oracle sections m a hfirst
  rw [extractBibleReferences_eq_aggregate, aggregatePhase_spec]
  intro e he r hr hrm
  simp only [List.mem_map] at he
  obtain ⟨sd, hsd, rfl⟩ := he
  simp only [List.mem_map] at hr
  obtain ⟨x, hx, rfl⟩ := hr
  have hxm : x.mnemonic = m := by
    rw [← refFor_mnemonic (finalTracking oracle sections) x]
    exact hrm
  unfold refFor
  rw [hxm, hte]
  by_cases hc : 1 < occCount sections m
  · rw [if_pos hc, if_pos hc]
  · rw [if_neg hc, if_neg hc]

/-- The shared table's entry for `m` in the output. -/
theorem mapGet_shared_final (scriptureOf : SectionDataForProcess → String)
    (oracle : FetchOracle) (sections : List SectionDataForProcess)
    (m : String) (a : AnchorDataForProcess) (hfirst : firstAnchorOf sections m = some a) :
    mapGet (extractBibleReferences scriptureOf oracle sections).sharedMnemonicReferences m
      = (if 1 < occCount sections m then some (resolveRefContents oracle a) else none) := by
  have hte := trackEntryFor_final oracle sections m a hfirst
  have hmem := mnemonic_mem_of_firstAnchor hfirst
  rw [extractBibleReferences_eq_aggregate, aggregatePhase_spec]
  show mapGet ((allAnchors sections).foldl
    (sharedStep (finalTracking oracle sections)) []) m = _
  rw [mapGet_sharedFold]
  by_cases hc : 1 < occCount sections m
  · rw [if_pos ⟨hmem, by rw [hte]; exact hc⟩, if_pos hc, hte]
  · rw [if_neg (fun hh => hc (by rw [hte] at hh; exact hh.2)), if_neg hc]
    rfl

theorem nodup_shared_final (scriptureOf : SectionDataForProcess → String)
    (oracle : FetchOracle) (sections : List SectionDataForProcess) :
    (mapKeys (extractBibleReferences scriptureOf oracle
      sections).sharedMnemonicReferences).Nodup := by
  rw [extractBibleReferences_eq_aggregate, aggregatePhase_spec]
  exact nodup_mapKeys_sharedFold _ _ _ (by simp)

theorem count_eq_filter_length (m : String) : ∀ (l : List AnchorDataForProcess),
    (l.map (·.mnemonic)).count m = (l.filter (fun x => x.mnemonic == m)).length := by
  intro l
  induction l with
  | nil => rfl
  | cons a as ih =>
      by_cases ha : a.mnemonic = m
      · rw [List.map_cons, List.count_cons, List.filter_cons_of_pos (by simp [ha]),
          List.length_cons, ih]
        simp [ha]
      · rw [List.map_cons, List.count_cons, List.filter_cons_of_neg (by simp [ha]), ih]
        simp [ha]

theorem map_eq_replicate {α β : Type} : ∀ (l : List α) (f : α → β) (X : β),
    (∀ x ∈ l, f x = X) → l.map f = List.replicate l.length X := by
  intro l
  induction l with
  | nil => intro f X _; rfl
  | cons a as ih =>
      intro f X h
      rw [List.map_cons, List.length_cons, List.replicate_succ,
        h a (List.mem_cons_self _ _), ih f X (fun x hx => h x (List.mem_cons_of_mem _ hx))]

theorem flatMap_refEntries (t : TrackingMap) (scriptureOf : SectionDataForProcess → String)
    (m : String) : ∀ (sections : List SectionDataForProcess),
    (sections.map (fun sd => (⟨sd.sectionTitle, scriptureOf sd,
          sd.referenceDataInAnchors.map (refFor t)⟩ : BiblicalPassageRefEntry))).flatMap
        (fun e => (e.references.filter (fun r => r.mnemonic == m)).map
          (fun r => r.refContents))
      = ((allAnchors sections).filter (fun x => x.mnemonic == m)).map
          (fun x => (refFor t x).refContents) := by
  intro sections
  induction sections with
  | nil => rfl
  | cons sd rest ih =>
      rw [List.map_cons, List.flatMap_cons, ih]
      have hinner : ∀ (anchors : List AnchorDataForProcess),
          ((anchors.map (refFor t)).filter (fun r => r.mnemonic == m)).map
              (fun r => r.refContents)
            = (anchors.filter (fun x => x.mnemonic == m)).map
              (fun x => (refFor t x).refContents) := by
        intro anchors
        induction anchors with
        | nil => rfl
        | cons x xs ihx =>
            rw [List.map_cons]
            by_cases hx : x.mnemonic = m
            · rw [List.filter_cons_of_pos (by simp [refFor_mnemonic, hx]),
                List.filter_cons_of_pos (by simp [hx]), List.map_cons, List.map_cons, ihx]
            · rw [List.filter_cons_of_neg (by simp [refFor_mnemonic, hx]),
                List.filter_cons_of_neg (by simp [hx]), ihx]
      rw [show allAnchors (sd :: rest) = sd.referenceDataInAnchors ++ allAnchors rest
          from rfl,
        List.filter_append, List.map_append, hinner]

theorem refEntriesFor_spec (scriptureOf : SectionDataForProcess → String)
    (oracle : FetchOracle) (sections : List SectionDataForProcess) (m : String) :
    refEntriesFor (extractBibleReferences scriptureOf oracle sections) m =
      ((allAnchors sections).filter (fun x => x.mnemonic == m)).map
        (fun x => (refFor (finalTracking oracle sections) x).refContents) := by
  rw [extractBibleReferences_eq_aggregate, aggregatePhase_spec]
  exact flatMap_refEntries _ scriptureOf m sections

/-- Every occurrence of `m` in the output, flattened: a replicate of the
pointer (when shared) or the resolved contents (when inline). -/
theorem refEntries_replicate (scriptureOf : SectionDataForProcess → String)
    (oracle : FetchOracle) (sections : List SectionDataForProcess)
    (m : String) (a : AnchorDataForProcess) (hfirst : firstAnchorOf sections m = some a) :
    refEntriesFor (extractBibleReferences scriptureOf oracle sections) m
      = List.replicate (occCount sections m)
          (if 1 < occCount sections m then pointerString m
            else resolveRefContents oracle a) := by
  have hte := trackEntryFor_final oracle sections m a hfirst
  rw [refEntriesFor_spec]
  have hx : ∀ x ∈ (allAnchors sections).filter (fun x => x.mnemonic == m),
      (refFor (finalTracking oracle sections) x).refContents
        = (if 1 < occCount sections m then pointerString m
            else resolveRefContents oracle a) := by
    intro x hxf
    have hxm : x.mnemonic = m := by simpa using List.of_mem_filter hxf
    unfold refFor
    rw [hxm, hte]
    by_cases hc : 1 < occCount sections m
    · rw [if_pos hc, if_pos hc]
    · rw [if_neg hc, if_neg hc]
  rw [map_eq_replicate _ _ _ hx]
  congr 1
  rw [occCount, count_eq_filter_length]

theorem entries_mnemonics_spec (scriptureOf : SectionDataForProcess → String)
    (oracle : FetchOracle) (sections : List SectionDataForProcess) :
    (extractBibleReferences scriptureOf oracle sections).entries.map
        (fun e => e.references.map (fun r => r.mnemonic))
      = sections.map (fun sd => sd.referenceDataInAnchors.map (fun x => x.mnemonic)) := by
  rw [extractBibleReferences_eq_aggregate, aggregatePhase_spec]
  show (sections.map _).map _ = _
  rw [List.map_map]
  refine List.map_congr_left (fun sd _ => ?_)
  show (sd.referenceDataInAnchors.map (refFor _)).map (fun r => r.mnemonic) = _
  rw [List.map_map]
  exact List.map_congr_left (fun x _ => refFor_mnemonic _ x)

theorem entries_citations_spec (scriptureOf : SectionDataForProcess → String)
    (oracle : FetchOracle) (sections : List SectionDataForProcess) :
    (extractBibleReferences scriptureOf oracle sections).entries.map (fun e => e.citation)
      = sections.map (fun sd => sd.sectionTitle) := by
  rw [extractBibleReferences_eq_aggregate, aggregatePhase_spec]
  show (sections.map _).map _ = _
  rw [List.map_map]
  rfl

theorem resolveRefContents_of_fail {oracle : FetchOracle} {a : AnchorDataForProcess}
    (hfail : ∀ r, oracle (buildAnchorRefExtractionData a.href).fetchUrl
      ≠ JsOutcome.value r) :
    resolveRefContents oracle a = UNABLE_TO_EXTRACT_REFERENCE := by
  unfold resolveRefContents
  rcases h : oracle (buildAnchorRefExtractionData a.href).fetchUrl with r | e | e
  · exact absurd h (hfail r)
  · rfl
  · rfl

theorem resolveRefContents_of_value {oracle : FetchOracle} {a : AnchorDataForProcess}
    {r : PublicationRefData}
    (hok : oracle (buildAnchorRefExtractionData a.href).fetchUrl = JsOutcome.value r) :
    resolveRefContents oracle a = r.parsedContent := by
  unfold resolveRefContents
  rw [hok]

/-! ## C2: inline and shared emission are exact and mutually exclusive -/

/-- C2. For every mnemonic of a completed document resolution (with `a` its
first-seen anchor, whose fetch supplies its text): if it occurs exactly once,
its resolved text is emitted inline wherever it occurs and the shared table
has no entry for it; if it occurs more than once, every occurrence is the
pointer string `SEE: sharedMnemonicReferences["<mnemonic>"]` and the shared
table holds exactly one entry for it carrying the resolved text. No mnemonic
is both inlined and shared. -/
theorem c2_inline_shared_mutually_exclusive (scriptureOf : SectionDataForProcess → String)
    (oracle : FetchOracle) (sections : List SectionDataForProcess)
    (m : String) (a : AnchorDataForProcess)
    (hfirst : firstAnchorOf sections m = some a) :
    (occCount sections m = 1 →
      (∀ e ∈ (extractBibleReferences scriptureOf oracle sections).entries,
        ∀ r ∈ e.references, r.mnemonic = m →
          r.refContents = resolveRefContents oracle a) ∧
      mapGet (extractBibleReferences scriptureOf oracle
        sections).sharedMnemonicReferences m = none) ∧
    (1 < occCount sections m →
      (∀ e ∈ (extractBibleReferences scriptureOf oracle sections).entries,
        ∀ r ∈ e.references, r.mnemonic = m → r.refContents = pointerString m) ∧
      ((extractBibleReferences scriptureOf oracle
          sections).sharedMnemonicReferences.filter (fun p => p.1 == m)).length = 1 ∧
      mapGet (extractBibleReferences scriptureOf oracle
        sections).sharedMnemonicReferences m = some (resolveRefContents oracle a)) := by
  constructor
  · intro h1
    constructor
    · intro e he r hr hrm
      rw [refContents_emitted scriptureOf oracle sections m a hfirst e he r hr hrm,
        if_neg (by omega)]
    · rw [mapGet_shared_final scriptureOf oracle sections m a hfirst, if_neg (by omega)]
  · intro h2
    refine ⟨?_, ?_, ?_⟩
    · intro e he r hr hrm
      rw [refContents_emitted scriptureOf oracle sections m a hfirst e he r hr hrm,
        if_pos h2]
    · exact filter_length_one_of_nodup_mapGet
        (nodup_shared_final scriptureOf oracle sections)
        (by rw [mapGet_shared_final scriptureOf oracle sections m a hfirst, if_pos h2])
    · rw [mapGet_shared_final scriptureOf oracle sections m a hfirst, if_pos h2]

/-- Witness for C2 at a document where mnemonic `A` occurs twice. -/
theorem c2_witness :
    firstAnchorOf [⟨"s1", "t1", [⟨"A", some "jwp/ref-a"⟩, ⟨"A", some "jwp/ref-a2"⟩]⟩] "A"
      = some ⟨"A", some "jwp/ref-a"⟩ ∧
    1 < occCount [⟨"s1", "t1", [⟨"A", some "jwp/ref-a"⟩, ⟨"A", some "jwp/ref-a2"⟩]⟩] "A" ∧
    ((∀ e ∈ (extractBibleReferences (fun _ => "") (fun _ => JsOutcome.value ⟨false, false, "T"⟩)
        [⟨"s1", "t1", [⟨"A", some "jwp/ref-a"⟩, ⟨"A", some "jwp/ref-a2"⟩]⟩]).entries,
      ∀ r ∈ e.references, r.mnemonic = "A" → r.refContents = pointerString "A") ∧
    ((extractBibleReferences (fun _ => "") (fun _ => JsOutcome.value ⟨false, false, "T"⟩)
        [⟨"s1", "t1", [⟨"A", some "jwp/ref-a"⟩, ⟨"A", some "jwp/ref-a2"⟩]⟩]).sharedMnemonicReferences.filter
        (fun p => p.1 == "A")).length = 1 ∧
    mapGet (extractBibleReferences (fun _ => "") (fun _ => JsOutcome.value ⟨false, false, "T"⟩)
        [⟨"s1", "t1", [⟨"A", some "jwp/ref-a"⟩, ⟨"A", some "jwp/ref-a2"⟩]⟩]).sharedMnemonicReferences "A"
      = some (resolveRefContents (fun _ => JsOutcome.value ⟨false, false, "T"⟩)
          ⟨"A", some "jwp/ref-a"⟩)) :=
  ⟨rfl, by decide,
    (c2_inline_shared_mutually_exclusive (fun _ => "")
      (fun _ => JsOutcome.value ⟨false, false, "T"⟩)
      [⟨"s1", "t1", [⟨"A", some "jwp/ref-a"⟩, ⟨"A", some "jwp/ref-a2"⟩]⟩]
      "A" ⟨"A", some "jwp/ref-a"⟩ rfl).2 (by decide)⟩

/-! ## C3: failures become the sentinel, the run still completes -/

/-- C3. When the fetch for one mnemonic fails (its settled outcome is an
`Error` result or a rejection — never a parsed value), the run still
completes with a well-formed result: every section contributes its entry
with its title and its anchors' mnemonics in order; every occurrence of the
failed mnemonic carries the sentinel `unable to extract reference` (through
the shared table when it recurs); and every mnemonic whose fetch succeeded
carries its resolved text at all of its occurrences. -/
theorem c3_failure_sentinel_graceful (scriptureOf : SectionDataForProcess → String)
    (oracle : FetchOracle) (sections : List SectionDataForProcess)
    (m : String) (a : AnchorDataForProcess)
    (hfirst : firstAnchorOf sections m = some a)
    (hfail : ∀ r, oracle (buildAnchorRefExtractionData a.href).fetchUrl
      ≠ JsOutcome.value r) :
    (extractBibleReferences scriptureOf oracle sections).entries.map
        (fun e => e.references.map (fun r => r.mnemonic))
      = sections.map (fun sd => sd.referenceDataInAnchors.map (fun x => x.mnemonic)) ∧
    (extractBibleReferences scriptureOf oracle sections).entries.map (fun e => e.citation)
      = sections.map (fun sd => sd.sectionTitle) ∧
    refEntriesFor (extractBibleReferences scriptureOf oracle sections) m
      = List.replicate (occCount sections m)
          (if 1 < occCount sections m then pointerString m
            else UNABLE_TO_EXTRACT_REFERENCE) ∧
    (1 < occCount sections m →
      mapGet (extractBibleReferences scriptureOf oracle
          sections).sharedMnemonicReferences m = some UNABLE_TO_EXTRACT_REFERENCE) ∧
    (∀ m' a' r', firstAnchorOf sections m' = some a' →
      oracle (buildAnchorRefExtractionData a'.href).fetchUrl = JsOutcome.value r' →
      refEntriesFor (extractBibleReferences scriptureOf oracle sections) m'
        = List.replicate (occCount sections m')
            (if 1 < occCount sections m' then pointerString m' else r'.parsedContent) ∧
      (1 < occCount sections m' →
        mapGet (extractBibleReferences scriptureOf oracle
            sections).sharedMnemonicReferences m' = some r'.parsedContent)) := by
  have hsent := resolveRefContents_of_fail hfail
  refine ⟨entries_mnemonics_spec scriptureOf oracle sections,
    entries_citations_spec scriptureOf oracle sections, ?_, ?_, ?_⟩
  · rw [refEntries_replicate scriptureOf oracle sections m a hfirst, hsent]
  · intro h2
    rw [mapGet_shared_final scriptureOf oracle sections m a hfirst, if_pos h2, hsent]
  · intro m' a' r' hfirst' hok
    have hres := resolveRefContents_of_value hok
    constructor
    · rw [refEntries_replicate scriptureOf oracle sections m' a' hfirst', hres]
    · intro h2
      rw [mapGet_shared_final scriptureOf oracle sections m' a' hfirst', if_pos h2, hres]

/-- Witness for C3: every fetch fails, mnemonic `B` occurs twice. -/
theorem c3_witness :
    occCount [⟨"s1", "t1", [⟨"A", some "jwp/ref-a"⟩, ⟨"B", some "jwp/ref-b"⟩]⟩,
      ⟨"s2", "t2", [⟨"B", some "jwp/ref-b2"⟩]⟩] "B" = 2 ∧
    refEntriesFor (extractBibleReferences (fun _ => "")
        (fun _ => JsOutcome.errValue "network down")
        [⟨"s1", "t1", [⟨"A", some "jwp/ref-a"⟩, ⟨"B", some "jwp/ref-b"⟩]⟩,
          ⟨"s2", "t2", [⟨"B", some "jwp/ref-b2"⟩]⟩]) "B"
      = List.replicate (occCount [⟨"s1", "t1", [⟨"A", some "jwp/ref-a"⟩,
            ⟨"B", some "jwp/ref-b"⟩]⟩, ⟨"s2", "t2", [⟨"B", some "jwp/ref-b2"⟩]⟩] "B")
          (if 1 < occCount [⟨"s1", "t1", [⟨"A", some "jwp/ref-a"⟩,
              ⟨"B", some "jwp/ref-b"⟩]⟩, ⟨"s2", "t2", [⟨"B", some "jwp/ref-b2"⟩]⟩] "B"
            then pointerString "B" else UNABLE_TO_EXTRACT_REFERENCE) ∧
    mapGet (extractBibleReferences (fun _ => "")
        (fun _ => JsOutcome.errValue "network down")
        [⟨"s1", "t1", [⟨"A", some "jwp/ref-a"⟩, ⟨"B", some "jwp/ref-b"⟩]⟩,
          ⟨"s2", "t2", [⟨"B", some "jwp/ref-b2"⟩]⟩]).sharedMnemonicReferences "B"
      = some UNABLE_TO_EXTRACT_REFERENCE :=
  ⟨by decide,
    (c3_failure_sentinel_graceful (fun _ => "") (fun _ => JsOutcome.errValue "network down")
      [⟨"s1", "t1", [⟨"A", some "jwp/ref-a"⟩, ⟨"B", some "jwp/ref-b"⟩]⟩,
        ⟨"s2", "t2", [⟨"B", some "jwp/ref-b2"⟩]⟩]
      "B" ⟨"B", some "jwp/ref-b"⟩ rfl
      (fun r h => JsOutcome.noConfusion h)).2.2.1,
    (c3_failure_sentinel_graceful (fun _ => "") (fun _ => JsOutcome.errValue "network down")
      [⟨"s1", "t1", [⟨"A", some "jwp/ref-a"⟩, ⟨"B", some "jwp/ref-b"⟩]⟩,
        ⟨"s2", "t2", [⟨"B", some "jwp/ref-b2"⟩]⟩]
      "B" ⟨"B", some "jwp/ref-b"⟩ rfl
      (fun r h => JsOutcome.noConfusion h)).2.2.2.1 (by decide)⟩

/-! ## C9: the output does not depend on fetch completion order -/

/-- C9. Document resolution is deterministic with respect to its inputs:
for the same sections and the same fetch outcomes, any two settlement orders
of the started fetches (any permutations of the fetch list) produce
structurally identical outputs — rerunning resolution yields the identical
result regardless of scheduling. -/
theorem c9_output_independent_of_completion_order
    (scriptureOf : SectionDataForProcess → String) (oracle : FetchOracle)
    (sections : List SectionDataForProcess)
    (order₁ order₂ : List AnchorDataForProcess)
    (h₁ : order₁.Perm (runTrackingPhase sections).2)
    (h₂ : order₂.Perm (runTrackingPhase sections).2) :
    extractBibleReferencesWithOrder scriptureOf oracle sections order₁
      = extractBibleReferencesWithOrder scriptureOf oracle sections order₂ := by
  have hfo := (runTrackingPhase_spec sections).2.2.2.2
  have hnd := (runTrackingPhase_spec sections).2.1
  have hfnd : ((runTrackingPhase sections).2.map (·.mnemonic)).Nodup := by
    rw [hfo]
    exact (firstOccurrences_mnemonics _ _).1
  have hnd₁ : (order₁.map (·.mnemonic)).Nodup := ((h₁.map _).nodup_iff).mpr hfnd
  have hnd₂ : (order₂.map (·.mnemonic)).Nodup := ((h₂.map _).nodup_iff).mpr hfnd
  have hcomp : runCompletionPhase oracle (runTrackingPhase sections).1 order₁
      = runCompletionPhase oracle (runTrackingPhase sections).1 order₂ := by
    apply strMap_ext
    · rw [mapKeys_runCompletionPhase, mapKeys_runCompletionPhase]
    · rw [mapKeys_runCompletionPhase]
      exact hnd
    · intro m
      rw [mapGet_runCompletionPhase_of_nodup oracle m order₁ _ hnd₁,
        mapGet_runCompletionPhase_of_nodup oracle m order₂ _ hnd₂,
        find?_eq_of_perm_of_nodup h₁ hfnd m, find?_eq_of_perm_of_nodup h₂ hfnd m]
  unfold extractBibleReferencesWithOrder
  rw [hcomp]

/-- Witness for C9: reversing the settlement order leaves the output
unchanged on a two-mnemonic document. -/
theorem c9_witness :
    ((runTrackingPhase [⟨"s1", "t1", [⟨"A", some "jwp/ref-a"⟩,
        ⟨"B", some "jwp/ref-b"⟩]⟩]).2.reverse.Perm
      (runTrackingPhase [⟨"s1", "t1", [⟨"A", some "jwp/ref-a"⟩,
        ⟨"B", some "jwp/ref-b"⟩]⟩]).2) ∧
    extractBibleReferencesWithOrder (fun _ => "")
        (fun u => JsOutcome.value ⟨false, false, u⟩)
        [⟨"s1", "t1", [⟨"A", some "jwp/ref-a"⟩, ⟨"B", some "jwp/ref-b"⟩]⟩]
        (runTrackingPhase [⟨"s1", "t1", [⟨"A", some "jwp/ref-a"⟩,
          ⟨"B", some "jwp/ref-b"⟩]⟩]).2.reverse
      = extractBibleReferencesWithOrder (fun _ => "")
          (fun u => JsOutcome.value ⟨false, false, u⟩)
          [⟨"s1", "t1", [⟨"A", some "jwp/ref-a"⟩, ⟨"B", some "jwp/ref-b"⟩]⟩]
          (runTrackingPhase [⟨"s1", "t1", [⟨"A", some "jwp/ref-a"⟩,
            ⟨"B", some "jwp/ref-b"⟩]⟩]).2 :=
  ⟨List.reverse_perm _,
    c9_output_independent_of_completion_order (fun _ => "")
      (fun u => JsOutcome.value ⟨false, false, u⟩)
      [⟨"s1", "t1", [⟨"A", some "jwp/ref-a"⟩, ⟨"B", some "jwp/ref-b"⟩]⟩]
      _ _ (List.reverse_perm _) (List.Perm.refl _)⟩

end WolSieve
